import Mathlib

/-!
Verification of the Tarang engine (a schema-driven data-access layer over a
spreadsheet-like remote store) against its natural-language specification.

The development is a shallow embedding of the TypeScript source:
* `src/utils.ts` — the value codec (`parseValue` / `stringifyValue`);
* `src/model.ts` — the query/mutation engine (filters, sort, relations,
  update, create, auto-increment);
* `src/client.ts` — the read cache and its per-table invalidation.

Modelling conventions, used throughout and noted again at each definition:
* Cell text is `String`; JS numbers are modelled as `Int` (floating point is
  outside the model); JS `Date` objects are modelled by their epoch-millisecond
  instant.
* JS `null` and `undefined` are both modelled by `TValue.vnull` when a value is
  present, and by `Option.none` when a key is absent; all operations the claims
  exercise treat the two identically (`== null`, falsiness, serialization).
* JS built-ins used by the source (`String(n)` / `Number(s)` decimal rendering,
  `Date.prototype.toISOString` / `new Date(text)`, `JSON.stringify` /
  `JSON.parse`, `String.prototype.toLowerCase`) are modelled by executable
  Lean functions that reproduce the behaviour the source relies on; each model
  carries a comment saying which built-in it stands for.
-/

namespace Tarang

/-- JSON values as a `json` column can hold them after `JSON.parse`.
Numbers are modelled as integers, object fields keep insertion order. -/
inductive JsonVal where
  | jnull
  | jbool (b : Bool)
  | jnum (n : Int)
  | jstr (s : String)
  | jarr (elems : List JsonVal)
  | jobj (fields : List (String × JsonVal))

/-- The decoded (typed) value of a cell, i.e. the JS value universe the engine
manipulates: `null`/`undefined` (`vnull`), numbers, strings, booleans, `Date`
objects (by their instant), and structured JSON arrays/objects. -/
inductive TValue where
  | vnull
  | vnum (n : Int)
  | vstr (s : String)
  | vbool (b : Bool)
  | vdate (ms : Int)
  | varr (elems : List JsonVal)
  | vobj (fields : List (String × JsonVal))

/-! ### Decimal rendering of numbers
Models the JS built-ins `String(n)` (for an integral number) and `Number(s)`
(on integral decimal text): base-10 digits via `Nat.digits`/`Nat.ofDigits`. -/
/-- The character for a decimal digit (`0 ↦ '0'`, …, `9 ↦ '9'`). -/
def digitChar (d : Nat) : Char := Char.ofNat (48 + d)

/-- The decimal digit denoted by a character. -/
def charDigit (c : Char) : Nat := c.toNat - 48

/-- Whether a character is a decimal digit. -/
def isDigitChar (c : Char) : Bool := 48 ≤ c.toNat && c.toNat ≤ 57

/-- Little-endian digit list to the number it denotes (the list is the
character sequence in reading order). -/
def digitsToNat (ds : List Char) : Nat := Nat.ofDigits 10 ((ds.map charDigit).reverse)

/-- Models `String(n)` for a natural number: its decimal representation. -/
def natToString (n : Nat) : String :=
  if n = 0 then "0" else ⟨((Nat.digits 10 n).map digitChar).reverse⟩

/-- Models `Number(s)` on decimal digit text. -/
def stringToNat (s : String) : Nat := digitsToNat s.data

/-- Models `String(n)` for an integral JS number. -/
def intToString (n : Int) : String :=
  if n < 0 then "-" ++ natToString n.natAbs else natToString n.toNat

/-- Models `Number(s)` on (optionally sign-prefixed) integral decimal text. -/
def stringToInt (s : String) : Int :=
  if s.data.head? = some '-' then -(stringToNat ⟨s.data.tail⟩ : Int) else stringToNat s

/-! ### JSON text
Models the JS built-in pair `JSON.stringify` (compact rendering, fields in
insertion order) and `JSON.parse`.  String escaping covers the quote, the
backslash and the common control characters the engine can meet; other
control characters are outside the modelled string domain. -/
/-- The escape sequence `JSON.stringify` emits for one character. -/
def escapeChar (c : Char) : List Char :=
  if c = '"' then ['\\', '"']
  else if c = '\\' then ['\\', '\\']
  else if c = '\n' then ['\\', 'n']
  else if c = '\t' then ['\\', 't']
  else if c = '\r' then ['\\', 'r']
  else [c]

/-- Escape a whole string body. -/
def escChars (l : List Char) : List Char := (l.map escapeChar).flatten

mutual

/-- Models `JSON.stringify` (compact form, no whitespace). -/
def printJson : JsonVal → List Char
  | .jnull => ['n', 'u', 'l', 'l']
  | .jbool true => ['t', 'r', 'u', 'e']
  | .jbool false => ['f', 'a', 'l', 's', 'e']
  | .jnum n => (intToString n).data
  | .jstr s => '"' :: (escChars s.data ++ ['"'])
  | .jarr l => '[' :: (printElems l ++ [']'])
  | .jobj l => '\x7b' :: (printFields l ++ ['\x7d'])

/-- Array elements, comma-separated. -/
def printElems : List JsonVal → List Char
  | [] => []
  | [v] => printJson v
  | v :: vs => printJson v ++ ',' :: printElems vs

/-- Object fields, comma-separated, each as `"key":value`. -/
def printFields : List (String × JsonVal) → List Char
  | [] => []
  | [(k, v)] => '"' :: (escChars k.data ++ '"' :: ':' :: printJson v)
  | (k, v) :: kvs =>
    ('"' :: (escChars k.data ++ '"' :: ':' :: printJson v)) ++ ',' :: printFields kvs

end

/-- Inverse of `escapeChar` on the tail character of a two-char escape. -/
def unescapeChar : Char → Char
  | 'n' => '\n'
  | 't' => '\t'
  | 'r' => '\r'
  | c => c

/-- Parse a JSON string body (after the opening quote), through the closing
quote.  Returns the decoded string and the remaining input. -/
def parseJString : List Char → Option (String × List Char)
  | [] => none
  | c :: rest =>
    if c = '"' then some ("", rest)
    else if c = '\\' then
      match rest with
      | [] => none
      | e :: rest2 =>
        match parseJString rest2 with
        | none => none
        | some (s, r) => some (⟨unescapeChar e :: s.data⟩, r)
    else
      match parseJString rest with
      | none => none
      | some (s, r) => some (⟨c :: s.data⟩, r)

/-- Parse an integral JSON number (optional sign, maximal run of digits). -/
def parseNum (s : List Char) : Option (Int × List Char) :=
  match s with
  | [] => none
  | c :: rest =>
    if c = '-' then
      match rest.takeWhile isDigitChar with
      | [] => none
      | ds => some (-(digitsToNat ds : Int), rest.dropWhile isDigitChar)
    else
      match (c :: rest).takeWhile isDigitChar with
      | [] => none
      | ds => some ((digitsToNat ds : Int), (c :: rest).dropWhile isDigitChar)

/-- Consume an exact literal character sequence from the front of the input. -/
def expectChars : List Char → List Char → Option (List Char)
  | [], s => some s
  | _ :: _, [] => none
  | c :: cs, d :: s => if c = d then expectChars cs s else none

mutual

/-- Fuel-indexed JSON value parser (the fuel only bounds recursion depth;
`jsonParse` supplies enough for all inputs it accepts). -/
def parseJ : Nat → List Char → Option (JsonVal × List Char)
  | 0, _ => none
  | _ + 1, [] => none
  | fuel + 1, c :: rest =>
    if c = 'n' then (expectChars ['u', 'l', 'l'] rest).map (fun r => (JsonVal.jnull, r))
    else if c = 't' then (expectChars ['r', 'u', 'e'] rest).map (fun r => (JsonVal.jbool true, r))
    else if c = 'f' then
      (expectChars ['a', 'l', 's', 'e'] rest).map (fun r => (JsonVal.jbool false, r))
    else if c = '"' then (parseJString rest).map (fun p => (JsonVal.jstr p.1, p.2))
    else if c = '[' then
      match rest with
      | [] => none
      | d :: r =>
        if d = ']' then some (JsonVal.jarr [], r)
        else (parseElems fuel (d :: r)).map (fun p => (JsonVal.jarr p.1, p.2))
    else if c = '\x7b' then
      match rest with
      | [] => none
      | d :: r =>
        if d = '\x7d' then some (JsonVal.jobj [], r)
        else (parseFields fuel (d :: r)).map (fun p => (JsonVal.jobj p.1, p.2))
    else (parseNum (c :: rest)).map (fun p => (JsonVal.jnum p.1, p.2))

/-- Parse one or more comma-separated values, consuming the closing `]`. -/
def parseElems : Nat → List Char → Option (List JsonVal × List Char)
  | 0, _ => none
  | fuel + 1, s =>
    (parseJ fuel s).bind (fun p =>
      match p.2 with
      | [] => none
      | d :: r2 =>
        if d = ',' then (parseElems fuel r2).map (fun q => (p.1 :: q.1, q.2))
        else if d = ']' then some ([p.1], r2)
        else none)

/-- Parse one or more comma-separated fields, consuming the closing brace. -/
def parseFields : Nat → List Char → Option (List (String × JsonVal) × List Char)
  | 0, _ => none
  | fuel + 1, s =>
    match s with
    | [] => none
    | c0 :: s2 =>
      if c0 = '"' then
        (parseJString s2).bind (fun pk =>
          match pk.2 with
          | [] => none
          | d :: r2 =>
            if d = ':' then
              (parseJ fuel r2).bind (fun pv =>
                match pv.2 with
                | [] => none
                | e :: r4 =>
                  if e = ',' then
                    (parseFields fuel r4).map (fun pr => ((pk.1, pv.1) :: pr.1, pr.2))
                  else if e = '\x7d' then some ([(pk.1, pv.1)], r4)
                  else none)
            else none)
      else none

end

/-- Models `JSON.parse`: parse the whole text, requiring full consumption;
any failure yields `none` (the codec turns that into a null cell value). -/
def jsonParse (s : String) : Option JsonVal :=
  match parseJ (s.data.length + 1) s.data with
  | some (v, []) => some v
  | _ => none

/-! ### Inversion of the JSON parser on printed output -/
/-- The remaining input after a printed number must not begin with a digit
(so the maximal-munch number parser stops exactly there). -/
def sepOk : List Char → Prop
  | [] => True
  | c :: _ => isDigitChar c = false

/-! ### The value codec (`src/utils.ts`) -/
/-- The logical column types of the schema. -/
inductive LType where
  | str
  | num
  | bool
  | json
  | date
  | uuid
  | cuid
deriving DecidableEq

/-- Models `String.prototype.toLowerCase` (per-character lowering). -/
def jsToLower (s : String) : String := ⟨s.data.map Char.toLower⟩

/-- Models the JS built-in pair `Date.prototype.toISOString` / `new Date(text)`:
`toISOString` renders the instant (epoch milliseconds) injectively and `new
Date` recovers the same instant from that rendering.  The model renders the
millisecond count in decimal followed by the terminal time-zone character. -/
def dateToISOString (ms : Int) : String := intToString ms ++ "Z"

/-- Models `new Date(text).getTime()` on texts produced by `dateToISOString`. -/
def parseDateString (s : String) : Int := stringToInt ⟨s.data.dropLast⟩

/-- A parsed JSON value as the JS value it denotes (JSON `null` is JS `null`,
JSON primitives are the corresponding JS primitives). -/
def jsonToTValue : JsonVal → TValue
  | .jnull => .vnull
  | .jbool b => .vbool b
  | .jnum n => .vnum n
  | .jstr s => .vstr s
  | .jarr l => .varr l
  | .jobj l => .vobj l

/-- Translated from `parseValue` in `src/utils.ts`: empty/absent cell text is
null for every type; `number` parses via `Number(...)`; `boolean` is a
case-insensitive equality with the literal "true"; `json` parses via
`JSON.parse` with a parse failure degrading to null; `date` constructs a date
from the text; every remaining type (string, uuid, cuid) passes the text
through unchanged. -/
def parseValue (value : Option String) (type : LType) : TValue :=
  match value with
  | none => .vnull
  | some v =>
    if v = "" then .vnull
    else
      match type with
      | .num => .vnum (stringToInt v)
      | .bool => .vbool (jsToLower v == "true")
      | .json =>
        match jsonParse v with
        | some j => jsonToTValue j
        | none => .vnull
      | .date => .vdate (parseDateString v)
      | _ => .vstr v

/-- Translated from `stringifyValue` in `src/utils.ts`: null/undefined
serialize to empty text, `Date` values via `toISOString`, other objects via
`JSON.stringify`, and the remaining primitives via `String(...)`. -/
def stringifyValue (value : Option TValue) : String :=
  match value with
  | none => ""
  | some .vnull => ""
  | some (.vdate ms) => dateToISOString ms
  | some (.varr l) => ⟨printJson (.jarr l)⟩
  | some (.vobj l) => ⟨printJson (.jobj l)⟩
  | some (.vnum n) => intToString n
  | some (.vstr s) => s
  | some (.vbool b) => if b then "true" else "false"

/-- The domain of typed values a column of the given logical type holds (the
decode targets of the codec; JS null belongs to every domain, and a `json`
column can hold any JSON-parsed JS value). -/
def inDomain : LType → TValue → Bool
  | _, .vnull => true
  | .str, .vstr _ => true
  | .uuid, .vstr _ => true
  | .cuid, .vstr _ => true
  | .num, .vnum _ => true
  | .bool, .vbool _ => true
  | .date, .vdate _ => true
  | .json, .vnum _ => true
  | .json, .vstr _ => true
  | .json, .vbool _ => true
  | .json, .varr _ => true
  | .json, .vobj _ => true
  | _, _ => false

/-! ### Filter operators (`src/model.ts`) -/
/-- Strict equality `===` on decoded values: structural on primitives and on
null; object values (dates, arrays, plain objects) compare by reference in JS,
and a filter operand is never the same object as a freshly decoded cell value,
so those comparisons are modelled false. -/
def jsStrictEq : TValue → TValue → Bool
  | .vnull, .vnull => true
  | .vnum a, .vnum b => a == b
  | .vstr a, .vstr b => a == b
  | .vbool a, .vbool b => a == b
  | _, _ => false

/-- JS `<` on decoded values, modelled on same-kind operands (numbers,
strings lexicographically, instants; booleans coerce to 0/1).  A mixed-kind
comparison coerces through `Number` in JS and is not exercised by any claim;
it is modelled as false (the NaN outcome). -/
def jsLt : TValue → TValue → Bool
  | .vnum a, .vnum b => a < b
  | .vstr a, .vstr b => a < b
  | .vdate a, .vdate b => a < b
  | .vbool a, .vbool b => (if a then (1 : Int) else 0) < (if b then 1 else 0)
  | _, _ => false

/-- JS `<=`, same modelling as `jsLt`. -/
def jsLe : TValue → TValue → Bool
  | .vnum a, .vnum b => a ≤ b
  | .vstr a, .vstr b => a ≤ b
  | .vdate a, .vdate b => a ≤ b
  | .vbool a, .vbool b => (if a then (1 : Int) else 0) ≤ (if b then 1 else 0)
  | _, _ => false

/-- JS `>`. -/
def jsGt (a b : TValue) : Bool := jsLt b a

/-- JS `>=`. -/
def jsGe (a b : TValue) : Bool := jsLe b a

/-- An operator object of the filter language (`FilterOperator` in
`src/types.ts`).  A missing key is `none`; the source distinguishes a key
present with value `null` (so `x !== undefined` holds but `x != null` does
not) from an absent key, hence a present operand is a full `TValue` with
`vnull` for a null operand. -/
structure FilterOp where
  gt : Option TValue := none
  lt : Option TValue := none
  gte : Option TValue := none
  lte : Option TValue := none
  ne : Option TValue := none
  like : Option String := none
  ilike : Option String := none

/-- Models `x != null` on an optional operand (false for an absent key and
for a present null). -/
def notNullish : Option TValue → Bool
  | none => false
  | some .vnull => false
  | some _ => true

/-- Models `x == null` on a row value (true for an absent column, for JS
undefined and for a present null). -/
def isNullish : Option TValue → Bool
  | none => true
  | some .vnull => true
  | some _ => false

/-- One atom of the anchored regular expression `createLikeRegex` builds: an
escaped literal character, `.` (from `_`), or `.*` (from `%`). -/
inductive RItem where
  | lit (c : Char)
  | anyOne
  | anyStar

/-- Translated from `createLikeRegex` in `src/model.ts`: every regex
metacharacter of the pattern is escaped (so each non-wildcard character
becomes one literal atom), then `%` becomes `.*` and `_` becomes `.`, and the
whole expression is anchored with `^`/`$`.  The model represents the resulting
anchored regex by its atom list; `reMatch` gives its `test` semantics, the
anchors requiring the atoms to consume the entire value. -/
def compileLikeChars (l : List Char) : List RItem :=
  l.map fun c =>
    if c = '%' then RItem.anyStar else if c = '_' then RItem.anyOne else RItem.lit c

/-- The full compilation, on the pattern string. -/
def compileLike (pattern : String) : List RItem := compileLikeChars pattern.data

/-- JS regex `.` (without the `s` flag) excludes the four line terminators. -/
def isLineTerminator (c : Char) : Bool :=
  c = '\n' || c = '\r' || c.toNat = 0x2028 || c.toNat = 0x2029

/-- Matcher for the anchored regexes `createLikeRegex` produces (standard
regex semantics; `test` of an anchored regex is a full match). -/
def reMatch : List RItem → List Char → Bool
  | [], [] => true
  | [], _ :: _ => false
  | .lit _ :: _, [] => false
  | .lit c :: ps, d :: s => c == d && reMatch ps s
  | .anyOne :: _, [] => false
  | .anyOne :: ps, d :: s => !isLineTerminator d && reMatch ps s
  | .anyStar :: ps, s =>
    reMatch ps s ||
      (match s with
       | [] => false
       | d :: s2 => !isLineTerminator d && reMatch (.anyStar :: ps) s2)
  termination_by ps s => (s.length, ps.length)

/-- The same matcher under the `i` flag (`new RegExp(source, 'i')`): literal
atoms compare after case folding, modelled by `Char.toLower`. -/
def reMatchCI : List RItem → List Char → Bool
  | [], [] => true
  | [], _ :: _ => false
  | .lit _ :: _, [] => false
  | .lit c :: ps, d :: s => c.toLower == d.toLower && reMatchCI ps s
  | .anyOne :: _, [] => false
  | .anyOne :: ps, d :: s => !isLineTerminator d && reMatchCI ps s
  | .anyStar :: ps, s =>
    reMatchCI ps s ||
      (match s with
       | [] => false
       | d :: s2 => !isLineTerminator d && reMatchCI (.anyStar :: ps) s2)
  termination_by ps s => (s.length, ps.length)

/-- The LIKE pattern semantics in the spec's own terms, amended for the JS
`.` semantics: `%` matches zero or more non-line-terminator characters, `_`
exactly one non-line-terminator character, every other pattern character
matches itself, anchored to the whole value. -/
def specLike : List Char → List Char → Bool
  | [], [] => true
  | [], _ :: _ => false
  | c :: ps, s =>
    if c = '%' then
      specLike ps s ||
        (match s with
         | [] => false
         | d :: s2 => !isLineTerminator d && specLike (c :: ps) s2)
    else if c = '_' then
      match s with
      | [] => false
      | d :: s2 => !isLineTerminator d && specLike ps s2
    else
      match s with
      | [] => false
      | d :: s2 => (c == d) && specLike ps s2
  termination_by p s => (s.length, p.length)

/-- `specLike` with case-folded literal comparison (the `ilike` semantics). -/
def specLikeCI : List Char → List Char → Bool
  | [], [] => true
  | [], _ :: _ => false
  | c :: ps, s =>
    if c = '%' then
      specLikeCI ps s ||
        (match s with
         | [] => false
         | d :: s2 => !isLineTerminator d && specLikeCI (c :: ps) s2)
    else if c = '_' then
      match s with
      | [] => false
      | d :: s2 => !isLineTerminator d && specLikeCI ps s2
    else
      match s with
      | [] => false
      | d :: s2 => (c.toLower == d.toLower) && specLikeCI ps s2
  termination_by p s => (s.length, p.length)

/-- Translated from `matchesStringOperators` in `src/model.ts` (the item
value is non-null here, `matchesOperators` having handled null already): each
present pattern requires the row value to be a string and the built regex to
accept it, `like` case-sensitively and `ilike` under the `i` flag; both are
ANDed when present. -/
def matchesStringOperators (itemValue : TValue) (ops : FilterOp) : Bool :=
  (match ops.like with
   | none => true
   | some pat =>
     match itemValue with
     | .vstr s => reMatch (compileLike pat) s.data
     | _ => false) &&
  (match ops.ilike with
   | none => true
   | some pat =>
     match itemValue with
     | .vstr s => reMatchCI (compileLike pat) s.data
     | _ => false)

/-- Translated from `matchesComparisonOperators` in `src/model.ts`: each
present ordered operand rules the row out when its comparison fails (all
operators are ANDed), and `ne` rules it out on strict equality.  The ordered
operators test presence with `!= null`, `ne` with `!== undefined`. -/
def matchesComparisonOperators (itemValue : TValue) (ops : FilterOp) : Bool :=
  if notNullish ops.gt && jsLe itemValue (ops.gt.getD .vnull) then false
  else if notNullish ops.lt && jsGe itemValue (ops.lt.getD .vnull) then false
  else if notNullish ops.gte && jsLt itemValue (ops.gte.getD .vnull) then false
  else if notNullish ops.lte && jsGt itemValue (ops.lte.getD .vnull) then false
  else if ops.ne.isSome && jsStrictEq itemValue (ops.ne.getD .vnull) then false
  else true

/-- Translated from `matchesOperators` in `src/model.ts`: a null/undefined
row value matches exactly when `ne` is present; otherwise the comparison and
string operator groups are both required. -/
def matchesOperators (itemValue : Option TValue) (ops : FilterOp) : Bool :=
  if isNullish itemValue then ops.ne.isSome
  else
    matchesComparisonOperators (itemValue.getD .vnull) ops &&
      matchesStringOperators (itemValue.getD .vnull) ops

/-- A filter value: a literal (exact equality) or an operator object.  The
source separates the two with the runtime test `isFilterOperator` (a non-null
object that is neither an array nor a `Date`); the tag models that test's
outcome. -/
inductive FilterVal where
  | lit (v : TValue)
  | ops (o : FilterOp)

/-- A decoded row object: column name to decoded value, in header order. -/
abbrev Item := List (String × TValue)

/-- Property access `item[key]` (`none` models an absent key / undefined). -/
def lookupItem (item : Item) (key : String) : Option TValue :=
  (item.find? (fun kv => kv.1 == key)).map (fun kv => kv.2)

/-- `itemValue === filterValue` where the item value may be absent
(undefined); `undefined === w` is false for every modelled operand `w`. -/
def jsStrictEqO (itemValue : Option TValue) (w : TValue) : Bool :=
  match itemValue with
  | none => false
  | some v => jsStrictEq v w

/-- A filter: column name to filter value; all fields are ANDed. -/
abbrev FilterV := List (String × FilterVal)

/-- Translated from `matchesFilterValue` in `src/model.ts`. -/
def matchesFilterValue (itemValue : Option TValue) (fv : FilterVal) : Bool :=
  match fv with
  | .lit w => jsStrictEqO itemValue w
  | .ops o => matchesOperators itemValue o

/-- Translated from `matchesFilter` in `src/model.ts`: every field of the
filter must accept the row's value for that column. -/
def matchesFilter (item : Item) (f : FilterV) : Bool :=
  f.all (fun kv => matchesFilterValue (lookupItem item kv.1) kv.2)

/-! ### Sorting (`applySort` in `src/model.ts`) -/
/-- Sort direction. -/
inductive SortOrder where
  | asc
  | desc
deriving DecidableEq

/-- Translated from the comparator inside `applySort` (`src/model.ts`): the
null checks come first — null against null is 0, a null on either side
returns ±1 switched by the direction — then the values compare with `<`/`>`.
The column's decoded values are modelled by a linearly ordered type (one
homogeneous column: numbers, strings, or instants). -/
def sortComparator {β : Type} [LinearOrder β] (sortOrder : SortOrder)
    (valA valB : Option β) : Int :=
  match valA, valB with
  | none, none => 0
  | none, some _ => if sortOrder = .asc then 1 else -1
  | some _, none => if sortOrder = .asc then -1 else 1
  | some a, some b =>
    if a < b then (if sortOrder = .asc then -1 else 1)
    else if a > b then (if sortOrder = .asc then 1 else -1)
    else 0

/-- Translated from `applySort` in `src/model.ts`: `Array.prototype.sort` is a
stable sort that places `a` before `b` when the comparator is negative and
keeps the input order of elements comparing 0; for the comparator above (a
total preorder) that is exactly stable insertion sort under the relation
`comparator a b ≤ 0`. -/
def applySort {α β : Type} [LinearOrder β] (sortOrder : SortOrder)
    (key : α → Option β) (results : List α) : List α :=
  @List.insertionSort α (fun a b => sortComparator sortOrder (key a) (key b) ≤ 0)
    (fun _ _ => Int.decLe _ _) results

/-! ### The read cache (`src/client.ts`) -/
/-- The table-name prefix of a range specifier: the text before the first `!`
delimiter, the whole string when there is no delimiter — exactly what
`range.split('!')[0]` computes. -/
def tableNameOf (range : String) : String := ⟨range.data.takeWhile (fun c => c != '!')⟩

/-- Models `key.startsWith(text)` on the character sequences. -/
def strStartsWith (key pre : String) : Bool := pre.data.isPrefixOf key.data

/-- Translated from `invalidateCache` in `src/client.ts`: take the sheet name
before the first `!`; when it is empty (falsy) return without invalidating;
otherwise delete every cache entry whose key starts with the sheet name
followed by `!`.  The cache is a JS `Map`: an insertion-ordered association
list, whose remaining entries keep order and payload. -/
def invalidateCache {α : Type} (range : String) (cache : List (String × α)) :
    List (String × α) :=
  let sheetName := tableNameOf range
  if sheetName = "" then cache
  else cache.filter (fun kv => !(strStartsWith kv.1 (sheetName ++ "!")))

/-- The cache effect of `updateValues` (overwrite): the remote call itself is
outside the model; afterwards the cache is invalidated for the written
range's table. -/
def updateValuesCache {α : Type} (range : String) (cache : List (String × α)) :
    List (String × α) := invalidateCache range cache

/-- The cache effect of `appendValues`. -/
def appendValuesCache {α : Type} (range : String) (cache : List (String × α)) :
    List (String × α) := invalidateCache range cache

/-- The cache effect of `clearValues`. -/
def clearValuesCache {α : Type} (range : String) (cache : List (String × α)) :
    List (String × α) := invalidateCache range cache

/-! ### Relation resolution (`loadRelations` in `src/model.ts`) -/
/-- Relation kinds. -/
inductive RelType where
  | hasOne
  | belongsTo
  | hasMany

/-- A relation declaration (`RelationConfig` in `src/types.ts`); the target
model is represented at use sites by the related record set its single bulk
`findMany` fetch returns. -/
structure RelationCfg where
  type : RelType
  foreignKey : String
  localKey : String

/-- JS falsiness of a row value (`!localValue`): null/undefined, the number
0, the empty string and `false` are falsy; every object — a date, an array, a
plain object — is truthy. -/
def jsFalsy : Option TValue → Bool
  | none => true
  | some .vnull => true
  | some (.vnum n) => n == 0
  | some (.vstr s) => s == ""
  | some (.vbool b) => !b
  | some (.vdate _) => false
  | some (.varr _) => false
  | some (.vobj _) => false

/-- JS truthiness. -/
def jsTruthy (v : Option TValue) : Bool := !(jsFalsy v)

/-- The value `loadRelations` attaches under a relation's name. -/
inductive RelValue where
  | one (r : Option Item)
  | many (rs : List Item)

/-- Translated from the per-item body of `loadRelations` in `src/model.ts`:
with the bulk-fetched related records in hand, an item whose local-key value
is falsy is left untouched (no relation key attached at all); otherwise
hasOne/belongsTo attach the first related record whose foreign-key value
strictly equals the local value (an explicit null when none matches), and
hasMany attaches the list of all such records. -/
def attachRelation (relation : RelationCfg) (allRelatedRecords : List Item)
    (item : Item) : Item × Option RelValue :=
  let localValue := lookupItem item relation.localKey
  if jsFalsy localValue then (item, none)
  else
    match relation.type with
    | .hasOne | .belongsTo =>
      (item, some (.one (allRelatedRecords.find? (fun r =>
        jsStrictEqO (lookupItem r relation.foreignKey) (localValue.getD .vnull)))))
    | .hasMany =>
      (item, some (.many (allRelatedRecords.filter (fun r =>
        jsStrictEqO (lookupItem r relation.foreignKey) (localValue.getD .vnull)))))

/-- `loadRelations` for one relation: the per-item attachment applied to
every fetched parent row. -/
def loadRelation (relation : RelationCfg) (allRelatedRecords : List Item)
    (results : List Item) : List (Item × Option RelValue) :=
  results.map (attachRelation relation allRelatedRecords)

/-! ### Schema, rows and the row codec (`src/schema.ts`, `src/model.ts`) -/
/-- A column definition after Schema normalization (`ColumnDefinition` plus
the data-type flags): the logical type and the flags the engine consults.
`autoIncrement` is the OR of the type-level and column-level flags, as
`extractTypeInfo` computes it. -/
structure ColumnDef where
  type : LType
  unique : Bool := false
  defaultVal : Option TValue := none
  autoIncrement : Bool := false
  isCreatedAt : Bool := false
  isUpdatedAt : Bool := false
  isDeletedAt : Bool := false

/-- A normalized schema: the ordered column-name ↦ definition map
(`schema.definition`, JS object insertion order). -/
abbrev SchemaL := List (String × ColumnDef)

/-- Property access on the schema definition map. -/
def lookupCol (schema : SchemaL) (key : String) : Option ColumnDef :=
  (schema.find? (fun kv => kv.1 == key)).map (fun kv => kv.2)

/-- Translated from `getDeletedAtField` in `src/model.ts`: the first schema
key holding a date type with the `isDeletedAt` role. -/
def getDeletedAtField (schema : SchemaL) : Option String :=
  (schema.find? (fun kv => kv.2.type == LType.date && kv.2.isDeletedAt)).map (fun kv => kv.1)

/-- Translated from `getUpdatedAtField` in `src/model.ts`. -/
def getUpdatedAtField (schema : SchemaL) : Option String :=
  (schema.find? (fun kv => kv.2.type == LType.date && kv.2.isUpdatedAt)).map (fun kv => kv.1)

/-- A raw sheet row: cell text in header order. -/
abbrev Row := List String

/-- Translated from `mapRowToObject` in `src/model.ts`: each header, with its
position, decodes the cell at that position per the column's logical type (a
missing cell is undefined, which the codec maps to null); a header without a
column definition passes the raw cell text through. -/
def mapRowToObject (schema : SchemaL) (headers : List String) (row : Row) : Item :=
  headers.enum.map (fun ih =>
    match lookupCol schema ih.2 with
    | some cd => (ih.2, parseValue (row.get? ih.1) cd.type)
    | none =>
      match row.get? ih.1 with
      | some c => (ih.2, .vstr c)
      | none => (ih.2, .vnull))

/-- Translated from `mapObjectToRow` in `src/model.ts`: serialize the item's
value for every header in order (an absent key serializes like null, to empty
cell text). -/
def mapObjectToRow (headers : List String) (obj : Item) : Row :=
  headers.map (fun h => stringifyValue (lookupItem obj h))

/-- JS object spread `{...item, ...updateData}`: the item's keys keep their
order with values overridden by `updateData` where present; keys only in
`updateData` are appended in their order. -/
def spreadMerge (item upd : Item) : Item :=
  item.map (fun kv => (kv.1, (lookupItem upd kv.1).getD kv.2)) ++
    upd.filter (fun kv => (lookupItem item kv.1).isNone)

/-- JS property assignment `obj[k] = v`: override in place, else append. -/
def setKey (obj : Item) (k : String) (v : TValue) : Item :=
  if (lookupItem obj k).isSome then
    obj.map (fun kv => if kv.1 == k then (kv.1, v) else kv)
  else obj ++ [(k, v)]

/-! ### `update` (`src/model.ts`) -/
/-- The update payload: `{...data}` plus the updatedAt stamp (the current
instant's ISO text, the theorem parameter `now`) when the schema declares
that role. -/
def mkUpdateData (schema : SchemaL) (data : Item) (now : String) : Item :=
  match getUpdatedAtField schema with
  | some u => setKey data u (.vstr now)
  | none => data

/-- Translated from the per-row body of `update`'s map in `src/model.ts`:
decode the row; a row whose soft-delete column is truthy is returned raw and
contributes no updated item; a row matching the filter contributes its merged
item and is re-encoded; any other row is returned raw. -/
def updateStep (schema : SchemaL) (headers : List String) (f : FilterV)
    (updateData : Item) (row : Row) : Row × Option Item :=
  let item := mapRowToObject schema headers row
  match getDeletedAtField schema with
  | some d =>
    if jsTruthy (lookupItem item d) then (row, none)
    else
      if matchesFilter item f then
        let updatedItem := spreadMerge item updateData
        (mapObjectToRow headers updatedItem, some updatedItem)
      else (row, none)
  | none =>
    if matchesFilter item f then
      let updatedItem := spreadMerge item updateData
      (mapObjectToRow headers updatedItem, some updatedItem)
    else (row, none)

/-- The outcome of `update`: the rows of the single write-back (issued when
any row changed), the returned updated items (in row order), and whether a
write happens. -/
structure UpdateResult where
  newRows : List Row
  updatedItems : List Item
  hasChanges : Bool

/-- Translated from `update` in `src/model.ts` (the remote read supplies
`rows`; `newRows` is the payload of the single overwrite call): one pass maps
every row through `updateStep`, collecting the updated items it pushes. -/
def updateModel (schema : SchemaL) (headers : List String) (f : FilterV)
    (data : Item) (now : String) (rows : List Row) : UpdateResult :=
  let updateData := mkUpdateData schema data now
  { newRows := rows.map (fun r => (updateStep schema headers f updateData r).1)
    updatedItems := rows.filterMap (fun r => (updateStep schema headers f updateData r).2)
    hasChanges := rows.any (fun r => (updateStep schema headers f updateData r).2.isSome) }

/-! ### `create` and auto-increment (`src/model.ts`) -/
/-- The per-key in-memory auto-increment watermark map
(`lastAutoIncrementValues`). -/
abbrev WmMap := List (String × Int)

/-- Watermark lookup. -/
def lookupWm (wm : WmMap) (key : String) : Option Int :=
  (wm.find? (fun kv => kv.1 == key)).map (fun kv => kv.2)

/-- Watermark assignment. -/
def setWm (wm : WmMap) (key : String) (v : Int) : WmMap :=
  if (lookupWm wm key).isSome then
    wm.map (fun kv => if kv.1 == key then (kv.1, v) else kv)
  else wm ++ [(key, v)]

/-- The reduce inside `getNextAutoIncrementValue`: the maximum decoded
numeric value of the column over the scanned rows, starting from 0 (so never
negative), 0 when the read returned null or no rows. -/
def scannedMax (schema : SchemaL) (headers : List String) (rows : Option (List Row))
    (key : String) : Int :=
  match rows with
  | none => 0
  | some rs =>
    if rs.length > 0 then
      (rs.map (mapRowToObject schema headers)).foldl (fun maxVal it =>
        match lookupItem it key with
        | some (.vnum v) => if v > maxVal then v else maxVal
        | _ => maxVal) 0
    else 0

/-- Translated from `getNextAutoIncrementValue` in `src/model.ts`: scan the
(possibly stale) read for the column maximum, combine it with the in-memory
watermark by taking the larger, issue that plus one, and store the issued
value as the new watermark before returning. -/
def getNextAutoIncrementValue (schema : SchemaL) (headers : List String)
    (wm : WmMap) (rows : Option (List Row)) (key : String) : Int × WmMap :=
  let max0 := scannedMax schema headers rows key
  let max1 : Int :=
    match lookupWm wm key with
    | some w => max max0 w
    | none => max0
  (max1 + 1, setWm wm key (max1 + 1))

/-- The environment of one `create`/`createMany` call: what every
`getSheetValues` read returns during the call (possibly stale cached data; a
null read models an empty sheet), and the generated identifiers and the
current instant used for generated defaults. -/
structure CreateEnv where
  readRows : Option (List Row)
  uuid : String
  cuid : String
  nowIso : String

/-- `findFirst` over already decoded, soft-delete-filtered items: the first
item matching the filter, none otherwise (`findMany` with limit 1). -/
def findFirstItems (items : List Item) (f : FilterV) : Option Item :=
  (items.filter (fun it => matchesFilter it f)).head?

/-- The items `findMany` exposes for a read result: every row decoded, rows
whose soft-delete column is truthy dropped (no filter/sort/pagination here —
the unique check's filter is applied by `findFirstItems`). -/
def visibleItems (schema : SchemaL) (headers : List String)
    (rows : Option (List Row)) : List Item :=
  match rows with
  | none => []
  | some rs =>
    let items := rs.map (mapRowToObject schema headers)
    match getDeletedAtField schema with
    | some d => items.filter (fun it => jsFalsy (lookupItem it d))
    | none => items

/-- Translated from `validateUniqueConstraints` in `src/model.ts`: iterate
the keys PRESENT in the caller's input object, in order; for each key whose
column is declared unique, issue a `findFirst` on `{key: value}` against the
visible items and fail with a uniqueness-violation message on a hit.  Keys
absent from the input — filled later by defaults — are never examined. -/
def validateUniqueConstraints (schema : SchemaL) (visible : List Item)
    (data : Item) : Option String :=
  data.findSome? (fun kv =>
    match lookupCol schema kv.1 with
    | none => none
    | some cd =>
      if cd.unique then
        match findFirstItems visible [(kv.1, .lit kv.2)] with
        | some _ => some ("Unique constraint violation: " ++ kv.1)
        | none => none
      else none)

/-- Translated from `getDefaultValue` in `src/model.ts`, in the source's
precedence: an explicit default, auto-increment generation for numeric
auto-increment columns, uuid/cuid generation, the current instant for
created/updated-role date columns, otherwise nothing. -/
def getDefaultValue (schema : SchemaL) (headers : List String) (env : CreateEnv)
    (wm : WmMap) (key : String) (cd : ColumnDef) : Option TValue × WmMap :=
  if cd.defaultVal.isSome then (cd.defaultVal, wm)
  else if cd.autoIncrement && (cd.type == LType.num) then
    let r := getNextAutoIncrementValue schema headers wm env.readRows key
    (some (.vnum r.1), r.2)
  else if cd.type == LType.uuid then (some (.vstr env.uuid), wm)
  else if cd.type == LType.cuid then (some (.vstr env.cuid), wm)
  else if cd.type == LType.date && (cd.isCreatedAt || cd.isUpdatedAt) then
    (some (.vstr env.nowIso), wm)
  else (none, wm)

/-- One step of `applyColumnDefaults`: a key already defined in the data (a
present null counts as defined) is skipped; otherwise a generated default,
when there is one, is assigned (appending the key). -/
def defaultsStep (schema : SchemaL) (headers : List String) (env : CreateEnv)
    (acc : Item × WmMap) (kv : String × ColumnDef) : Item × WmMap :=
  if (lookupItem acc.1 kv.1).isSome then acc
  else
    match getDefaultValue schema headers env acc.2 kv.1 kv.2 with
    | (some v, wm2) => (acc.1 ++ [(kv.1, v)], wm2)
    | (none, wm2) => (acc.1, wm2)

/-- Translated from `applyColumnDefaults` in `src/model.ts`: walk the schema
keys in order, filling the absent ones. -/
def applyColumnDefaults (schema : SchemaL) (headers : List String) (env : CreateEnv)
    (wm : WmMap) (data : Item) : Item × WmMap :=
  schema.foldl (defaultsStep schema headers env) (data, wm)

/-- Translated from `prepareDataForCreate` in `src/model.ts`: validate the
unique constraints on the caller's input FIRST, then fill the defaults. -/
def prepareDataForCreate (schema : SchemaL) (headers : List String) (env : CreateEnv)
    (wm : WmMap) (data : Item) : Except String (Item × WmMap) :=
  match validateUniqueConstraints schema (visibleItems schema headers env.readRows) data with
  | some e => .error e
  | none => .ok (applyColumnDefaults schema headers env wm data)

/-- Translated from `create` in `src/model.ts`: prepare the data, encode it,
append the single row to the store; the prepared item and the updated
watermark state are returned with the grown store. -/
def createOnce (schema : SchemaL) (headers : List String) (env : CreateEnv)
    (wm : WmMap) (store : List Row) (data : Item) :
    Except String (Item × List Row × WmMap) :=
  match prepareDataForCreate schema headers env wm data with
  | .error e => .error e
  | .ok (item, wm2) => .ok (item, store ++ [mapObjectToRow headers item], wm2)

/-- The loop of `createMany`: prepare every item in order, threading the
watermark state, collecting the encoded rows; no append happens here. -/
def createManyAux (schema : SchemaL) (headers : List String) (env : CreateEnv) :
    WmMap → List Item → Except String (List Item × List Row × WmMap)
  | wm, [] => .ok ([], [], wm)
  | wm, d :: ds =>
    match prepareDataForCreate schema headers env wm d with
    | .error e => .error e
    | .ok (item, wm2) =>
      match createManyAux schema headers env wm2 ds with
      | .error e => .error e
      | .ok (items, rows2, wm3) => .ok (item :: items, mapObjectToRow headers item :: rows2, wm3)

/-- Translated from `createMany` in `src/model.ts`: the whole batch is
prepared first — every read (so every uniqueness check) sees the pre-call
store — and then appended with exactly one remote call (none when empty). -/
def createMany (schema : SchemaL) (headers : List String) (env : CreateEnv)
    (wm : WmMap) (store : List Row) (batch : List Item) :
    Except String (List Item × List Row × WmMap) :=
  match createManyAux schema headers env wm batch with
  | .error e => .error e
  | .ok (items, rows2, wm2) =>
    .ok (items, if rows2.isEmpty then store else store ++ rows2, wm2)

/-- The one-column auto-increment schema of the burst scenario. -/
def c3Schema : SchemaL := [("id", { type := LType.num, autoIncrement := true })]

/-- The stale environment: every read during the call returns empty data. -/
def c3Env : CreateEnv := { readRows := some [], uuid := "", cuid := "", nowIso := "" }

/-- The deleted-at/name schema used by the update witness. -/
def c5Schema : SchemaL :=
  [("deletedAt", { type := LType.date, isDeletedAt := true }),
   ("name", { type := LType.str })]

/-- The unique-with-default schema of the C9 scenario. -/
def c9Schema : SchemaL :=
  [("email", { type := LType.str, unique := true, defaultVal := some (.vstr "a@b") })]

/-- Its environment: the sheet already holds a row with the default value. -/
def c9Env : CreateEnv := { readRows := some [["a@b"]], uuid := "", cuid := "", nowIso := "" }

/-- The unique-no-default schema of the C10 scenario. -/
def c10Schema : SchemaL := [("email", { type := LType.str, unique := true })]

/-- Its environment: the pre-call store is empty. -/
def c10Env : CreateEnv := { readRows := some [], uuid := "", cuid := "", nowIso := "" }

theorem charDigit_digitChar {d : Nat} (h : d < 10) : charDigit (digitChar d) = d := by
  interval_cases d <;> decide

theorem digitChar_toNat {d : Nat} (h : d < 10) : (digitChar d).toNat = 48 + d := by
  interval_cases d <;> decide

theorem digitsToNat_digits (n : Nat) :
    digitsToNat (((Nat.digits 10 n).map digitChar).reverse) = n := by
  unfold digitsToNat
  rw [List.map_reverse, List.reverse_reverse, List.map_map]
  have h : ((Nat.digits 10 n).map (charDigit ∘ digitChar)) = (Nat.digits 10 n).map id :=
    List.map_congr_left fun d hd =>
      charDigit_digitChar (Nat.digits_lt_base (by norm_num) hd)
  rw [h, List.map_id, Nat.ofDigits_digits]

theorem stringToNat_natToString (n : Nat) : stringToNat (natToString n) = n := by
  unfold natToString
  by_cases h : n = 0
  · subst h; decide
  · rw [if_neg h]
    exact digitsToNat_digits n

/-- Every character of `natToString n` is a decimal digit. -/
theorem natToString_chars {n : Nat} {c : Char} (hc : c ∈ (natToString n).data) :
    isDigitChar c = true := by
  unfold natToString at hc
  by_cases h : n = 0
  · subst h; simp at hc; subst hc; decide
  · rw [if_neg h] at hc
    simp only [List.mem_reverse, List.mem_map] at hc
    obtain ⟨d, hd, rfl⟩ := hc
    have hlt : d < 10 := Nat.digits_lt_base (by norm_num) hd
    have ht := digitChar_toNat hlt
    unfold isDigitChar
    rw [ht]
    simp only [Bool.and_eq_true, decide_eq_true_eq]
    omega

theorem natToString_ne_empty (n : Nat) : (natToString n).data ≠ [] := by
  unfold natToString
  by_cases h : n = 0
  · subst h; decide
  · rw [if_neg h]
    simp only [ne_eq, List.reverse_eq_nil_iff, List.map_eq_nil_iff]
    exact Nat.digits_ne_nil_iff_ne_zero.mpr h

theorem stringToInt_intToString (n : Int) : stringToInt (intToString n) = n := by
  by_cases h : n < 0
  · have h1 : intToString n = "-" ++ natToString n.natAbs := if_pos h
    have hdata : (intToString n).data = '-' :: (natToString n.natAbs).data := by
      rw [h1, String.data_append]; rfl
    unfold stringToInt
    rw [hdata]
    simp only [List.head?_cons, List.tail_cons, if_pos]
    have he : (⟨(natToString n.natAbs).data⟩ : String) = natToString n.natAbs := rfl
    rw [he, stringToNat_natToString]
    omega
  · have h1 : intToString n = natToString n.toNat := if_neg h
    have hne : (natToString n.toNat).data ≠ [] := natToString_ne_empty _
    have hhead : ¬ (natToString n.toNat).data.head? = some '-' := by
      cases hd : (natToString n.toNat).data with
      | nil => exact absurd hd hne
      | cons c cs =>
        have hc : isDigitChar c = true :=
          natToString_chars (by rw [hd]; exact List.mem_cons_self c cs)
        simp only [List.head?_cons, Option.some.injEq]
        intro hcm
        subst hcm
        exact absurd hc (by decide)
    unfold stringToInt
    rw [h1, if_neg hhead, stringToNat_natToString]
    omega

theorem span_digits {l1 l2 : List Char} (h1 : ∀ c ∈ l1, isDigitChar c = true)
    (h2 : sepOk l2) :
    (l1 ++ l2).takeWhile isDigitChar = l1 ∧ (l1 ++ l2).dropWhile isDigitChar = l2 := by
  induction l1 with
  | nil =>
    cases l2 with
    | nil => simp
    | cons c t =>
      have hc : isDigitChar c = false := h2
      simp [List.takeWhile_cons, List.dropWhile_cons, hc]
  | cons c t ih =>
    have hc : isDigitChar c = true := h1 c (List.mem_cons_self c t)
    have iht := ih (fun d hd => h1 d (List.mem_cons_of_mem c hd))
    simp [List.takeWhile_cons, List.dropWhile_cons, hc, iht.1, iht.2]

theorem digitsToNat_natToString (n : Nat) : digitsToNat (natToString n).data = n :=
  stringToNat_natToString n

theorem parseJString_escChars (l : List Char) (rest : List Char) :
    parseJString (escChars l ++ '"' :: rest) = some (⟨l⟩, rest) := by
  induction l with
  | nil =>
    have h0 : escChars [] = [] := rfl
    rw [h0, List.nil_append]
    unfold parseJString
    simp
  | cons c t ih =>
    have hesc : escChars (c :: t) = escapeChar c ++ escChars t := by
      simp [escChars]
    rw [hesc, List.append_assoc]
    unfold escapeChar
    split_ifs with h1 h2 h3 h4 h5
    · subst h1
      simp only [List.cons_append, List.nil_append]
      unfold parseJString
      simp [ih, unescapeChar]
    · subst h2
      simp only [List.cons_append, List.nil_append]
      unfold parseJString
      simp [ih, unescapeChar]
    · subst h3
      simp only [List.cons_append, List.nil_append]
      unfold parseJString
      simp [ih, unescapeChar]
    · subst h4
      simp only [List.cons_append, List.nil_append]
      unfold parseJString
      simp [ih, unescapeChar]
    · subst h5
      simp only [List.cons_append, List.nil_append]
      unfold parseJString
      simp [ih, unescapeChar]
    · simp only [List.cons_append, List.nil_append]
      unfold parseJString
      simp [h1, h2, ih]

theorem intToString_head (n : Int) :
    ∃ c t, (intToString n).data = c :: t ∧ (c = '-' ∨ isDigitChar c = true) := by
  by_cases h : n < 0
  · refine ⟨'-', (natToString n.natAbs).data, ?_, Or.inl rfl⟩
    have h1 : intToString n = "-" ++ natToString n.natAbs := if_pos h
    rw [h1, String.data_append]; rfl
  · have h1 : intToString n = natToString n.toNat := if_neg h
    cases hd : (natToString n.toNat).data with
    | nil => exact absurd hd (natToString_ne_empty _)
    | cons c t =>
      refine ⟨c, t, by rw [h1, hd], Or.inr ?_⟩
      exact natToString_chars (by rw [hd]; exact List.mem_cons_self c t)

theorem parseNum_print (n : Int) (rest : List Char) (hsep : sepOk rest) :
    parseNum ((intToString n).data ++ rest) = some (n, rest) := by
  by_cases h : n < 0
  · have h1 : (intToString n).data = '-' :: (natToString n.natAbs).data := by
      have h2 : intToString n = "-" ++ natToString n.natAbs := if_pos h
      rw [h2, String.data_append]; rfl
    rw [h1, List.cons_append]
    have hall : ∀ c ∈ (natToString n.natAbs).data, isDigitChar c = true :=
      fun c hc => natToString_chars hc
    obtain ⟨ht, hdr⟩ := span_digits hall hsep
    simp only [parseNum]
    rw [if_true]
    simp only [ht, hdr]
    cases hd : (natToString n.natAbs).data with
    | nil => exact absurd hd (natToString_ne_empty _)
    | cons c0 t0 =>
      show some (-(digitsToNat (c0 :: t0) : Int), rest) = some (n, rest)
      rw [← hd, digitsToNat_natToString]
      have h3 : -((n.natAbs : Int)) = n := by omega
      rw [h3]
  · have h1 : (intToString n).data = (natToString n.toNat).data := by
      have h2 : intToString n = natToString n.toNat := if_neg h
      rw [h2]
    rw [h1]
    have hall : ∀ c ∈ (natToString n.toNat).data, isDigitChar c = true :=
      fun c hc => natToString_chars hc
    obtain ⟨ht, hdr⟩ := span_digits hall hsep
    cases hd : (natToString n.toNat).data with
    | nil => exact absurd hd (natToString_ne_empty _)
    | cons c0 t0 =>
      rw [hd] at ht hdr
      have hc0 : isDigitChar c0 = true := by
        apply natToString_chars (n := n.toNat)
        rw [hd]; exact List.mem_cons_self c0 t0
      have hne : ¬ c0 = '-' := by
        intro hc; subst hc; exact absurd hc0 (by decide)
      rw [List.cons_append]
      simp only [parseNum]
      rw [if_neg hne]
      simp only [← List.cons_append, ht, hdr]
      show some ((digitsToNat (c0 :: t0) : Int), rest) = some (n, rest)
      rw [← hd, digitsToNat_natToString]
      have h3 : ((n.toNat : Int)) = n := by omega
      rw [h3]

theorem printJson_cons (j : JsonVal) :
    ∃ c t, printJson j = c :: t ∧ c ≠ ']' ∧ c ≠ '\x7d' := by
  cases j with
  | jnull => exact ⟨'n', _, rfl, by decide, by decide⟩
  | jbool b => cases b with
    | true => exact ⟨'t', _, rfl, by decide, by decide⟩
    | false => exact ⟨'f', _, rfl, by decide, by decide⟩
  | jnum n =>
    obtain ⟨c, t, hct, hc⟩ := intToString_head n
    refine ⟨c, t, by simp [printJson, hct], ?_, ?_⟩
    · rcases hc with h | h
      · subst h; decide
      · intro he; subst he; exact absurd h (by decide)
    · rcases hc with h | h
      · subst h; decide
      · intro he; subst he; exact absurd h (by decide)
  | jstr s => exact ⟨'"', _, rfl, by decide, by decide⟩
  | jarr l => exact ⟨'[', _, rfl, by decide, by decide⟩
  | jobj l => exact ⟨'\x7b', _, rfl, by decide, by decide⟩

theorem digit_or_dash_branches {c : Char} (h : c = '-' ∨ isDigitChar c = true) :
    c ≠ 'n' ∧ c ≠ 't' ∧ c ≠ 'f' ∧ c ≠ '"' ∧ c ≠ '[' ∧ c ≠ '\x7b' := by
  rcases h with h | h
  · subst h; refine ⟨by decide, by decide, by decide, by decide, by decide, by decide⟩
  · refine ⟨?_, ?_, ?_, ?_, ?_, ?_⟩ <;>
      (intro he; subst he; exact absurd h (by decide))

theorem parse_print_inversion (fuel : Nat) :
    (∀ j rest, (printJson j).length < fuel → sepOk rest →
      parseJ fuel (printJson j ++ rest) = some (j, rest)) ∧
    (∀ l rest, l ≠ [] → (printElems l).length + 1 < fuel →
      parseElems fuel (printElems l ++ ']' :: rest) = some (l, rest)) ∧
    (∀ l rest, l ≠ [] → (printFields l).length + 1 < fuel →
      parseFields fuel (printFields l ++ '\x7d' :: rest) = some (l, rest)) := by
  induction fuel with
  | zero =>
    exact ⟨fun j rest hlen _ => absurd hlen (by omega),
           fun l rest _ hlen => absurd hlen (by omega),
           fun l rest _ hlen => absurd hlen (by omega)⟩
  | succ f ih =>
    obtain ⟨ihA, ihB, ihC⟩ := ih
    refine ⟨?_, ?_, ?_⟩
    · intro j rest hlen hsep
      cases j with
      | jnull =>
        show parseJ (f + 1) (['n', 'u', 'l', 'l'] ++ rest) = some (.jnull, rest)
        simp only [List.cons_append, List.nil_append]
        unfold parseJ
        simp [expectChars]
      | jbool b =>
        cases b with
        | false =>
          show parseJ (f + 1) (['f', 'a', 'l', 's', 'e'] ++ rest) = some (.jbool false, rest)
          simp only [List.cons_append, List.nil_append]
          unfold parseJ
          simp [expectChars]
        | true =>
          show parseJ (f + 1) (['t', 'r', 'u', 'e'] ++ rest) = some (.jbool true, rest)
          simp only [List.cons_append, List.nil_append]
          unfold parseJ
          simp [expectChars]
      | jnum n =>
        obtain ⟨c, t, hct, hc⟩ := intToString_head n
        obtain ⟨hn1, hn2, hn3, hn4, hn5, hn6⟩ := digit_or_dash_branches hc
        show parseJ (f + 1) ((intToString n).data ++ rest) = some (.jnum n, rest)
        rw [hct, List.cons_append]
        unfold parseJ
        rw [if_neg hn1, if_neg hn2, if_neg hn3, if_neg hn4, if_neg hn5, if_neg hn6]
        rw [← List.cons_append, ← hct, parseNum_print n rest hsep]
        rfl
      | jstr s =>
        show parseJ (f + 1) (('"' :: (escChars s.data ++ ['"'])) ++ rest) = some (.jstr s, rest)
        simp only [List.cons_append, List.append_assoc, List.nil_append]
        unfold parseJ
        rw [if_neg (by decide), if_neg (by decide), if_neg (by decide), if_pos rfl]
        rw [parseJString_escChars]
        rfl
      | jarr l =>
        cases l with
        | nil =>
          show parseJ (f + 1) (('[' :: (printElems [] ++ [']'])) ++ rest) = some (.jarr [], rest)
          simp only [printElems, List.nil_append, List.cons_append]
          unfold parseJ
          simp
        | cons v vs =>
          obtain ⟨c, t, hct, hne1, _⟩ := printJson_cons v
          have hpe : ∃ t2, printElems (v :: vs) = c :: t2 := by
            cases vs with
            | nil => exact ⟨t, hct⟩
            | cons w ws =>
              refine ⟨t ++ ',' :: printElems (w :: ws), ?_⟩
              show printJson v ++ ',' :: printElems (w :: ws) =
                c :: (t ++ ',' :: printElems (w :: ws))
              rw [hct, List.cons_append]
          obtain ⟨t2, ht2⟩ := hpe
          have hL : printJson (.jarr (v :: vs)) = '[' :: (printElems (v :: vs) ++ [']']) := rfl
          rw [hL] at hlen
          simp only [List.length_cons, List.length_append, List.length_nil] at hlen
          have hstep : parseElems f (c :: (t2 ++ ']' :: rest)) = some (v :: vs, rest) := by
            rw [← List.cons_append, ← ht2]
            exact ihB (v :: vs) rest (List.cons_ne_nil v vs) (by omega)
          show parseJ (f + 1) (('[' :: (printElems (v :: vs) ++ [']'])) ++ rest) =
            some (.jarr (v :: vs), rest)
          simp only [List.cons_append, List.append_assoc, List.nil_append]
          rw [ht2, List.cons_append]
          unfold parseJ
          rw [if_neg (by decide), if_neg (by decide), if_neg (by decide), if_neg (by decide),
            if_pos rfl]
          simp [hne1, hstep]
      | jobj l =>
        cases l with
        | nil =>
          show parseJ (f + 1) (('\x7b' :: (printFields [] ++ ['\x7d'])) ++ rest) =
            some (.jobj [], rest)
          simp only [printFields, List.nil_append, List.cons_append]
          unfold parseJ
          simp
        | cons kv kvs =>
          obtain ⟨k, x⟩ := kv
          have hpf : ∃ t2, printFields ((k, x) :: kvs) = '"' :: t2 := by
            cases kvs with
            | nil => exact ⟨escChars k.data ++ '"' :: ':' :: printJson x, rfl⟩
            | cons kv2 kvs2 =>
              exact ⟨(escChars k.data ++ '"' :: ':' :: printJson x) ++
                ',' :: printFields (kv2 :: kvs2), rfl⟩
          obtain ⟨t2, ht2⟩ := hpf
          have hL : printJson (.jobj ((k, x) :: kvs)) =
              '\x7b' :: (printFields ((k, x) :: kvs) ++ ['\x7d']) := rfl
          rw [hL] at hlen
          simp only [List.length_cons, List.length_append, List.length_nil] at hlen
          have hstep : parseFields f ('"' :: (t2 ++ '\x7d' :: rest)) =
              some ((k, x) :: kvs, rest) := by
            rw [← List.cons_append, ← ht2]
            exact ihC ((k, x) :: kvs) rest (List.cons_ne_nil _ _) (by omega)
          show parseJ (f + 1) (('\x7b' :: (printFields ((k, x) :: kvs) ++ ['\x7d'])) ++ rest) =
            some (.jobj ((k, x) :: kvs), rest)
          simp only [List.cons_append, List.append_assoc, List.nil_append]
          rw [ht2, List.cons_append]
          unfold parseJ
          rw [if_neg (by decide), if_neg (by decide), if_neg (by decide), if_neg (by decide),
            if_neg (by decide), if_pos rfl]
          have hq : ¬ ('"' : Char) = '\x7d' := by decide
          simp [hq, hstep]
    · intro l rest hne hlen
      cases l with
      | nil => exact absurd rfl hne
      | cons v vs =>
        cases vs with
        | nil =>
          have hL : printElems [v] = printJson v := rfl
          rw [hL] at hlen ⊢
          have hA := ihA v (']' :: rest) (by omega)
            (by show isDigitChar ']' = false; decide)
          unfold parseElems
          rw [hA]
          simp
        | cons w ws =>
          have hL : printElems (v :: w :: ws) = printJson v ++ ',' :: printElems (w :: ws) := rfl
          rw [hL] at hlen ⊢
          simp only [List.length_append, List.length_cons] at hlen
          simp only [List.append_assoc, List.cons_append]
          have hA := ihA v (',' :: (printElems (w :: ws) ++ ']' :: rest)) (by omega)
            (by show isDigitChar ',' = false; decide)
          have hB := ihB (w :: ws) rest (List.cons_ne_nil _ _) (by omega)
          unfold parseElems
          rw [hA]
          simp [hB]
    · intro l rest hne hlen
      cases l with
      | nil => exact absurd rfl hne
      | cons kv kvs =>
        obtain ⟨k, x⟩ := kv
        cases kvs with
        | nil =>
          have hL : printFields [(k, x)] = '"' :: (escChars k.data ++ '"' :: ':' :: printJson x) :=
            rfl
          rw [hL] at hlen ⊢
          simp only [List.length_cons, List.length_append] at hlen
          simp only [List.cons_append, List.append_assoc]
          have hA := ihA x ('\x7d' :: rest) (by omega)
            (by show isDigitChar '\x7d' = false; decide)
          unfold parseFields
          simp [parseJString_escChars, hA]
        | cons kv2 kvs2 =>
          have hL : printFields ((k, x) :: kv2 :: kvs2) =
              ('"' :: (escChars k.data ++ '"' :: ':' :: printJson x)) ++
                ',' :: printFields (kv2 :: kvs2) := rfl
          rw [hL] at hlen ⊢
          simp only [List.length_cons, List.length_append] at hlen
          simp only [List.cons_append, List.append_assoc]
          have hA := ihA x (',' :: (printFields (kv2 :: kvs2) ++ '\x7d' :: rest)) (by omega)
            (by show isDigitChar ',' = false; decide)
          have hC := ihC (kv2 :: kvs2) rest (List.cons_ne_nil _ _) (by omega)
          unfold parseFields
          simp [parseJString_escChars, hA, hC]

/-- Round trip of the modelled `JSON.stringify` / `JSON.parse` pair. -/
theorem jsonParse_printJson (j : JsonVal) : jsonParse ⟨printJson j⟩ = some j := by
  unfold jsonParse
  have hd : (⟨printJson j⟩ : String).data = printJson j := rfl
  rw [hd]
  have h := (parse_print_inversion ((printJson j).length + 1)).1 j []
    (by omega) (by trivial)
  rw [List.append_nil] at h
  rw [h]

theorem intToString_ne_empty (n : Int) : intToString n ≠ "" := by
  unfold intToString
  by_cases h : n < 0
  · rw [if_pos h]
    intro hc
    have h2 := congrArg String.data hc
    rw [String.data_append] at h2
    simp at h2
  · rw [if_neg h]
    intro hc
    exact natToString_ne_empty n.toNat (congrArg String.data hc)

theorem dateToISOString_ne_empty (ms : Int) : dateToISOString ms ≠ "" := by
  intro hc
  have h2 := congrArg String.data hc
  rw [dateToISOString, String.data_append] at h2
  simp at h2

theorem printJson_string_ne_empty (j : JsonVal) : (⟨printJson j⟩ : String) ≠ "" := by
  intro hc
  obtain ⟨c, t, hct, _, _⟩ := printJson_cons j
  have h2 := congrArg String.data hc
  rw [hct] at h2
  simp at h2

theorem parseDateString_dateToISOString (ms : Int) :
    parseDateString (dateToISOString ms) = ms := by
  unfold parseDateString dateToISOString
  rw [String.data_append]
  have h1 : ("Z" : String).data = ['Z'] := rfl
  rw [h1, List.dropLast_concat]
  exact stringToInt_intToString ms

/-- C4, counterexample: the claim quantifies over every typed value of every
logical type, "including the empty string under logical type string"; but the
codec serializes the empty string to empty cell text, which parses back to
null, not to the empty string.  Likewise a `json`-typed value that is itself a
JS string is serialized without JSON quoting (plain `String(...)` path), and
its text does not parse back to the same value (here: not valid JSON at all,
so it degrades to null). -/
theorem C4_roundtrip_counterexample :
    (parseValue (some (stringifyValue (some (TValue.vstr "")))) .str = .vnull ∧
      TValue.vstr "" ≠ .vnull ∧ inDomain .str (.vstr "") = true) ∧
    (parseValue (some (stringifyValue (some (TValue.vstr "x")))) .json = .vnull ∧
      TValue.vstr "x" ≠ .vnull ∧ inDomain .json (.vstr "x") = true) :=
  ⟨⟨rfl, fun h => TValue.noConfusion h, rfl⟩,
   ⟨rfl, fun h => TValue.noConfusion h, rfl⟩⟩

/-- C4 (amended): for every logical type and every typed value in that type's
domain, `parse(serialize(value), type)` returns a value equal to the original
(dates compared as instants; JSON compared by content), except for the two
cases the codec cannot round-trip: the empty string (it serializes to empty
cell text, which decodes to null for every type), and a `json`-typed value
that is itself a JS string (it is serialized without JSON quoting). -/
theorem C4_roundtrip_amended (t : LType) (v : TValue)
    (hdom : inDomain t v = true)
    (hempty : v ≠ TValue.vstr "")
    (hjson : t = LType.json → ∀ s, v ≠ TValue.vstr s) :
    parseValue (some (stringifyValue (some v))) t = v := by
  cases v with
  | vnull => cases t <;> rfl
  | vstr s =>
    have hs : ¬ s = "" := fun hc => hempty (by rw [hc])
    cases t with
    | str => simp [parseValue, stringifyValue, hs]
    | uuid => simp [parseValue, stringifyValue, hs]
    | cuid => simp [parseValue, stringifyValue, hs]
    | json => exact absurd rfl (hjson rfl s)
    | num => simp [inDomain] at hdom
    | bool => simp [inDomain] at hdom
    | date => simp [inDomain] at hdom
  | vnum n =>
    have hne : ¬ intToString n = "" := intToString_ne_empty n
    cases t with
    | num => simp [parseValue, stringifyValue, hne, stringToInt_intToString]
    | json =>
      have hj : jsonParse (intToString n) = some (.jnum n) := by
        have he : intToString n = (⟨printJson (.jnum n)⟩ : String) := rfl
        rw [he, jsonParse_printJson]
      simp [parseValue, stringifyValue, hne, hj, jsonToTValue]
    | str => simp [inDomain] at hdom
    | bool => simp [inDomain] at hdom
    | date => simp [inDomain] at hdom
    | uuid => simp [inDomain] at hdom
    | cuid => simp [inDomain] at hdom
  | vbool b =>
    cases t with
    | bool => cases b <;> rfl
    | json => cases b <;> rfl
    | str => simp [inDomain] at hdom
    | num => simp [inDomain] at hdom
    | date => simp [inDomain] at hdom
    | uuid => simp [inDomain] at hdom
    | cuid => simp [inDomain] at hdom
  | vdate ms =>
    have hne : ¬ dateToISOString ms = "" := dateToISOString_ne_empty ms
    cases t with
    | date => simp [parseValue, stringifyValue, hne, parseDateString_dateToISOString]
    | str => simp [inDomain] at hdom
    | num => simp [inDomain] at hdom
    | bool => simp [inDomain] at hdom
    | json => simp [inDomain] at hdom
    | uuid => simp [inDomain] at hdom
    | cuid => simp [inDomain] at hdom
  | varr l =>
    cases t with
    | json =>
      have hne : ¬ (⟨printJson (.jarr l)⟩ : String) = "" := printJson_string_ne_empty _
      simp [parseValue, stringifyValue, hne, jsonParse_printJson, jsonToTValue]
    | str => simp [inDomain] at hdom
    | num => simp [inDomain] at hdom
    | bool => simp [inDomain] at hdom
    | date => simp [inDomain] at hdom
    | uuid => simp [inDomain] at hdom
    | cuid => simp [inDomain] at hdom
  | vobj l =>
    cases t with
    | json =>
      have hne : ¬ (⟨printJson (.jobj l)⟩ : String) = "" := printJson_string_ne_empty _
      simp [parseValue, stringifyValue, hne, jsonParse_printJson, jsonToTValue]
    | str => simp [inDomain] at hdom
    | num => simp [inDomain] at hdom
    | bool => simp [inDomain] at hdom
    | date => simp [inDomain] at hdom
    | uuid => simp [inDomain] at hdom
    | cuid => simp [inDomain] at hdom

/-- C4 amended witness: round trip evaluated at concrete values — a nonempty
string, a number, a date instant and a structured JSON object. -/
theorem C4_roundtrip_amended_witness :
    inDomain .str (.vstr "alice") = true ∧
    parseValue (some (stringifyValue (some (.vstr "alice")))) .str = .vstr "alice" ∧
    parseValue (some (stringifyValue (some (.vnum 42)))) .num = .vnum 42 ∧
    parseValue (some (stringifyValue (some (.vdate 1700000000000)))) .date =
      .vdate 1700000000000 ∧
    parseValue (some (stringifyValue (some (.vobj [("a", .jnum 1)])))) .json =
      .vobj [("a", .jnum 1)] :=
  ⟨rfl,
   C4_roundtrip_amended .str (.vstr "alice") rfl
     (by intro h; injection h with h2; exact absurd h2 (by decide))
     (fun h => LType.noConfusion h),
   C4_roundtrip_amended .num (.vnum 42) rfl
     (fun h => TValue.noConfusion h) (fun h => LType.noConfusion h),
   C4_roundtrip_amended .date (.vdate 1700000000000) rfl
     (fun h => TValue.noConfusion h) (fun h => LType.noConfusion h),
   C4_roundtrip_amended .json (.vobj [("a", .jnum 1)]) rfl
     (fun h => TValue.noConfusion h) (fun _ s h => TValue.noConfusion h)⟩

/-- C1, counterexample: on a column whose decoded row value is null, the
filter `{gt: 5, ne: 3}` DOES match — `matchesOperators` returns true as soon
as `ne` is present, never consulting `gt` — whereas the claim requires a
null-valued row never to match a filter containing `gt`, even when `ne` is
also present. -/
theorem C1_null_gt_ne_counterexample :
    matchesOperators (some .vnull) { gt := some (.vnum 5), ne := some (.vnum 3) } = true ∧
    matchesFilter [("age", .vnull)]
      [("age", .ops { gt := some (.vnum 5), ne := some (.vnum 3) })] = true :=
  ⟨rfl, rfl⟩

/-- C1 (amended): all operators of one field are ANDed when the row's decoded
value is non-null; when the row's value is null (or the column absent), the
operator object matches exactly when `ne` is present (whatever its operand,
and regardless of any gt/lt/gte/lte, which are not consulted at all) — in
particular a null row value matches no operator object that lacks `ne`. -/
theorem C1_null_operator_semantics (itemValue : Option TValue) (ops : FilterOp) :
    (isNullish itemValue = true → matchesOperators itemValue ops = ops.ne.isSome) ∧
    (isNullish itemValue = false →
      matchesOperators itemValue ops =
        (matchesComparisonOperators (itemValue.getD .vnull) ops &&
          matchesStringOperators (itemValue.getD .vnull) ops)) := by
  constructor
  · intro h
    unfold matchesOperators
    rw [if_pos h]
  · intro h
    unfold matchesOperators
    rw [if_neg (by rw [h]; exact Bool.false_ne_true)]

/-- C1 amended witness: a null row value matches `{lt: 7, ne: null}` (ne is
present) and fails `{gt: 5}` (no ne). -/
theorem C1_null_operator_semantics_witness :
    matchesOperators (some .vnull) { lt := some (.vnum 7), ne := some .vnull } = true ∧
    matchesOperators (some .vnull) { gt := some (.vnum 5) } = false :=
  ⟨((C1_null_operator_semantics (some .vnull)
      { lt := some (.vnum 7), ne := some .vnull }).1 rfl).trans rfl,
   ((C1_null_operator_semantics (some .vnull) { gt := some (.vnum 5) }).1 rfl).trans rfl⟩

theorem reMatch_compileLike_CS (n : Nat) :
    ∀ p s : List Char, p.length + s.length ≤ n →
      reMatch (compileLikeChars p) s = specLike p s := by
  induction n with
  | zero =>
    intro p s hle
    have hp : p = [] := List.length_eq_zero.mp (by omega)
    have hs : s = [] := List.length_eq_zero.mp (by omega)
    subst hp; subst hs
    simp [compileLikeChars, reMatch, specLike]
  | succ k ih =>
    intro p s hle
    cases p with
    | nil =>
      cases s with
      | nil => simp [compileLikeChars, reMatch, specLike]
      | cons d s2 => simp [compileLikeChars, reMatch, specLike]
    | cons c ps =>
      simp only [List.length_cons] at hle
      by_cases hc : c = '%'
      · subst hc
        have hcl : compileLikeChars ('%' :: ps) = RItem.anyStar :: compileLikeChars ps := by
          simp [compileLikeChars]
        rw [hcl]
        cases s with
        | nil =>
          have h1 := ih ps [] (by omega)
          simp [reMatch, specLike, h1]
        | cons d s2 =>
          have h1 := ih ps (d :: s2) (by simp only [List.length_cons] at *; omega)
          have h2 := ih ('%' :: ps) s2 (by simp only [List.length_cons] at *; omega)
          rw [hcl] at h2
          simp [reMatch, specLike, h1, h2]
      · by_cases hc2 : c = '_'
        · subst hc2
          have hcl : compileLikeChars ('_' :: ps) = RItem.anyOne :: compileLikeChars ps := by
            simp [compileLikeChars]
          rw [hcl]
          cases s with
          | nil => simp [reMatch, specLike]
          | cons d s2 =>
            have h1 := ih ps s2 (by simp only [List.length_cons] at *; omega)
            simp [reMatch, specLike, h1]
        · have hcl : compileLikeChars (c :: ps) = RItem.lit c :: compileLikeChars ps := by
            simp [compileLikeChars, hc, hc2]
          rw [hcl]
          cases s with
          | nil => simp [reMatch, specLike, hc, hc2]
          | cons d s2 =>
            have h1 := ih ps s2 (by simp only [List.length_cons] at *; omega)
            simp [reMatch, specLike, h1, hc, hc2]

theorem reMatch_compileLike_CI (n : Nat) :
    ∀ p s : List Char, p.length + s.length ≤ n →
      reMatchCI (compileLikeChars p) s = specLikeCI p s := by
  induction n with
  | zero =>
    intro p s hle
    have hp : p = [] := List.length_eq_zero.mp (by omega)
    have hs : s = [] := List.length_eq_zero.mp (by omega)
    subst hp; subst hs
    simp [compileLikeChars, reMatchCI, specLikeCI]
  | succ k ih =>
    intro p s hle
    cases p with
    | nil =>
      cases s with
      | nil => simp [compileLikeChars, reMatchCI, specLikeCI]
      | cons d s2 => simp [compileLikeChars, reMatchCI, specLikeCI]
    | cons c ps =>
      simp only [List.length_cons] at hle
      by_cases hc : c = '%'
      · subst hc
        have hcl : compileLikeChars ('%' :: ps) = RItem.anyStar :: compileLikeChars ps := by
          simp [compileLikeChars]
        rw [hcl]
        cases s with
        | nil =>
          have h1 := ih ps [] (by omega)
          simp [reMatchCI, specLikeCI, h1]
        | cons d s2 =>
          have h1 := ih ps (d :: s2) (by simp only [List.length_cons] at *; omega)
          have h2 := ih ('%' :: ps) s2 (by simp only [List.length_cons] at *; omega)
          rw [hcl] at h2
          simp [reMatchCI, specLikeCI, h1, h2]
      · by_cases hc2 : c = '_'
        · subst hc2
          have hcl : compileLikeChars ('_' :: ps) = RItem.anyOne :: compileLikeChars ps := by
            simp [compileLikeChars]
          rw [hcl]
          cases s with
          | nil => simp [reMatchCI, specLikeCI]
          | cons d s2 =>
            have h1 := ih ps s2 (by simp only [List.length_cons] at *; omega)
            simp [reMatchCI, specLikeCI, h1]
        · have hcl : compileLikeChars (c :: ps) = RItem.lit c :: compileLikeChars ps := by
            simp [compileLikeChars, hc, hc2]
          rw [hcl]
          cases s with
          | nil => simp [reMatchCI, specLikeCI, hc, hc2]
          | cons d s2 =>
            have h1 := ih ps s2 (by simp only [List.length_cons] at *; omega)
            simp [reMatchCI, specLikeCI, h1, hc, hc2]

/-- C6, counterexample: the claim says `_` matches exactly one character, but
the built regex translates `_` to `.`, which in JS does not match a line
terminator — so the one-character value "\n" fails the pattern `_`. -/
theorem C6_like_newline_counterexample :
    matchesStringOperators (.vstr "\n") { like := some "_" } = false ∧
    ("\n" : String).data.length = 1 := by
  refine ⟨?_, rfl⟩
  simp [matchesStringOperators, compileLike, compileLikeChars, reMatch, isLineTerminator]

/-- C6 (amended): a like/ilike filter never matches a non-textual row value;
on a string value the built regex, anchored at both ends, realizes the LIKE
semantics in which `%` matches zero or more non-line-terminator characters,
`_` exactly one non-line-terminator character, and every other pattern
character itself — case-sensitively for `like` and case-insensitively for
`ilike`. -/
theorem C6_like_semantics :
    (∀ v ops, (ops.like.isSome || ops.ilike.isSome) = true →
      (∀ s, v ≠ TValue.vstr s) → matchesStringOperators v ops = false) ∧
    (∀ pat s, matchesStringOperators (.vstr s) { like := some pat } =
      specLike pat.data s.data) ∧
    (∀ pat s, matchesStringOperators (.vstr s) { ilike := some pat } =
      specLikeCI pat.data s.data) := by
  refine ⟨?_, ?_, ?_⟩
  · intro v ops hsome hnot
    cases hl : ops.like with
    | some pat =>
      unfold matchesStringOperators
      rw [hl]
      cases v with
      | vstr s => exact absurd rfl (hnot s)
      | vnull => simp
      | vnum n => simp
      | vbool b => simp
      | vdate d => simp
      | varr l => simp
      | vobj l => simp
    | none =>
      cases hil : ops.ilike with
      | some pat =>
        unfold matchesStringOperators
        rw [hl, hil]
        cases v with
        | vstr s => exact absurd rfl (hnot s)
        | vnull => simp
        | vnum n => simp
        | vbool b => simp
        | vdate d => simp
        | varr l => simp
        | vobj l => simp
      | none => rw [hl, hil] at hsome; simp at hsome
  · intro pat s
    have h := reMatch_compileLike_CS (pat.data.length + s.data.length)
      pat.data s.data (le_refl _)
    unfold matchesStringOperators
    simp [compileLike, h]
  · intro pat s
    have h := reMatch_compileLike_CI (pat.data.length + s.data.length)
      pat.data s.data (le_refl _)
    unfold matchesStringOperators
    simp [compileLike, h]

/-- C6 amended witness: `like 'A%'` accepts "Alice"; a numeric row value
never matches. -/
theorem C6_like_semantics_witness :
    matchesStringOperators (.vstr "Alice") { like := some "A%" } = true ∧
    matchesStringOperators (.vnum 3) { like := some "A%" } = false := by
  constructor
  · have h := (C6_like_semantics).2.1 "A%" "Alice"
    rw [h]
    simp [specLike, isLineTerminator]
  · exact (C6_like_semantics).1 (.vnum 3) { like := some "A%" } rfl
      (fun s h => TValue.noConfusion h)

theorem sortComparator_asc_le_iff {β : Type} [LinearOrder β] (va vb : Option β) :
    sortComparator .asc va vb ≤ 0 ↔
      ((va = none → vb = none) ∧ ∀ x y, va = some x → vb = some y → x ≤ y) := by
  cases va with
  | none =>
    cases vb with
    | none => simp [sortComparator]
    | some b => simp [sortComparator]
  | some a =>
    cases vb with
    | none => simp [sortComparator]
    | some b =>
      have hR : ((some a = none → (some b : Option β) = none) ∧
          ∀ x y, some a = some x → some b = some y → x ≤ y) ↔ a ≤ b := by
        constructor
        · intro h; exact h.2 a b rfl rfl
        · intro h
          refine ⟨fun hc => Option.noConfusion hc, fun x y hx hy => ?_⟩
          cases hx; cases hy; exact h
      rw [hR]
      have hv : sortComparator .asc (some a) (some b) =
          if a < b then -1 else if a > b then 1 else 0 := by
        simp [sortComparator]
      rw [hv]
      split_ifs with h1 h2
      · exact iff_of_true (by omega) (le_of_lt h1)
      · exact iff_of_false (by omega) (not_le.mpr h2)
      · exact iff_of_true (by omega) (le_of_not_lt h2)

theorem sortComparator_desc_le_iff {β : Type} [LinearOrder β] (va vb : Option β) :
    sortComparator .desc va vb ≤ 0 ↔
      ((vb = none → va = none) ∧ ∀ x y, va = some x → vb = some y → y ≤ x) := by
  cases va with
  | none =>
    cases vb with
    | none => simp [sortComparator]
    | some b => simp [sortComparator]
  | some a =>
    cases vb with
    | none => simp [sortComparator]
    | some b =>
      have hR : (((some b : Option β) = none → (some a : Option β) = none) ∧
          ∀ x y, some a = some x → some b = some y → y ≤ x) ↔ b ≤ a := by
        constructor
        · intro h; exact h.2 a b rfl rfl
        · intro h
          refine ⟨fun hc => Option.noConfusion hc, fun x y hx hy => ?_⟩
          cases hx; cases hy; exact h
      rw [hR]
      have hv : sortComparator .desc (some a) (some b) =
          if a < b then 1 else if a > b then -1 else 0 := by
        simp [sortComparator]
      rw [hv]
      split_ifs with h1 h2
      · exact iff_of_false (by omega) (not_le.mpr h1)
      · exact iff_of_true (by omega) (le_of_lt h2)
      · exact iff_of_true (by omega) (le_of_not_lt h1)

theorem sortComparator_refl {β : Type} [LinearOrder β] (sortOrder : SortOrder)
    (va : Option β) : sortComparator sortOrder va va = 0 := by
  cases va with
  | none => rfl
  | some a => simp [sortComparator]

theorem sortComparator_total {β : Type} [LinearOrder β] (sortOrder : SortOrder)
    (va vb : Option β) :
    sortComparator sortOrder va vb ≤ 0 ∨ sortComparator sortOrder vb va ≤ 0 := by
  cases sortOrder with
  | asc =>
    rw [sortComparator_asc_le_iff, sortComparator_asc_le_iff]
    by_cases ha : va = none
    · by_cases hb : vb = none
      · exact Or.inl ⟨fun _ => hb, by subst ha; simp⟩
      · exact Or.inr ⟨fun _ => ha, by subst ha; simp⟩
    · by_cases hb : vb = none
      · exact Or.inl ⟨fun h => absurd h ha, by subst hb; simp⟩
      · obtain ⟨x, hx⟩ := Option.ne_none_iff_exists'.mp ha
        obtain ⟨y, hy⟩ := Option.ne_none_iff_exists'.mp hb
        rcases le_total x y with h | h
        · exact Or.inl ⟨fun hc => absurd hc ha, fun x2 y2 hx2 hy2 => by
            rw [hx] at hx2; rw [hy] at hy2
            cases hx2; cases hy2; exact h⟩
        · exact Or.inr ⟨fun hc => absurd hc hb, fun x2 y2 hx2 hy2 => by
            rw [hy] at hx2; rw [hx] at hy2
            cases hx2; cases hy2; exact h⟩
  | desc =>
    rw [sortComparator_desc_le_iff, sortComparator_desc_le_iff]
    by_cases ha : va = none
    · by_cases hb : vb = none
      · exact Or.inl ⟨fun _ => ha, by subst ha; simp⟩
      · exact Or.inl ⟨fun h => absurd h hb, by subst ha; simp⟩
    · by_cases hb : vb = none
      · exact Or.inr ⟨fun h => absurd h ha, by subst hb; simp⟩
      · obtain ⟨x, hx⟩ := Option.ne_none_iff_exists'.mp ha
        obtain ⟨y, hy⟩ := Option.ne_none_iff_exists'.mp hb
        rcases le_total x y with h | h
        · exact Or.inr ⟨fun hc => absurd hc ha, fun x2 y2 hx2 hy2 => by
            rw [hy] at hx2; rw [hx] at hy2
            cases hx2; cases hy2; exact h⟩
        · exact Or.inl ⟨fun hc => absurd hc hb, fun x2 y2 hx2 hy2 => by
            rw [hx] at hx2; rw [hy] at hy2
            cases hx2; cases hy2; exact h⟩

theorem sortComparator_trans {β : Type} [LinearOrder β] (sortOrder : SortOrder)
    {va vb vc : Option β} (h1 : sortComparator sortOrder va vb ≤ 0)
    (h2 : sortComparator sortOrder vb vc ≤ 0) :
    sortComparator sortOrder va vc ≤ 0 := by
  cases sortOrder with
  | asc =>
    rw [sortComparator_asc_le_iff] at h1 h2 ⊢
    refine ⟨fun ha => h2.1 (h1.1 ha), fun x z hx hz => ?_⟩
    cases hb : vb with
    | none => exact absurd hz (by rw [h2.1 hb]; exact fun hc => Option.noConfusion hc)
    | some y => exact le_trans (h1.2 x y hx hb) (h2.2 y z hb hz)
  | desc =>
    rw [sortComparator_desc_le_iff] at h1 h2 ⊢
    refine ⟨fun hc => h1.1 (h2.1 hc), fun x z hx hz => ?_⟩
    cases hb : vb with
    | none =>
      rw [h1.1 hb] at hx
      exact Option.noConfusion hx
    | some y => exact le_trans (h2.2 y z hb hz) (h1.2 x y hx hb)

/-- C2, counterexample: with `sortOrder: 'desc'` the comparator returns -1
when the left value is null and the right is not, so null-valued rows sort
FIRST in descending order: sorting `[some 5, none]` descending yields
`[none, some 5]` — the null row precedes the non-null row, contradicting
"nulls placed after all rows with non-null values for both sortOrder values". -/
theorem C2_desc_nulls_first_counterexample :
    applySort .desc (fun x : Option Int => x) [some 5, none] = [none, some 5] := by
  decide

/-- C2 (amended): `findMany`'s sort over a homogeneous column is a stable
total-preorder sort of the rows by the named column: the output is a
permutation of the input, ties (equal column values, nulls included) keep
their input order, ascending order places every null-valued row after all
non-null rows and ascending values before larger ones — but descending order
also switches the null comparisons, so nulls come BEFORE all non-null rows,
whose values descend. -/
theorem C2_applySort_semantics {α β : Type} [LinearOrder β]
    (key : α → Option β) (l : List α) :
    ((applySort .asc key l).Perm l ∧ (applySort .desc key l).Perm l) ∧
    (applySort .asc key l).Pairwise (fun a b =>
      (key a = none → key b = none) ∧ ∀ x y, key a = some x → key b = some y → x ≤ y) ∧
    (applySort .desc key l).Pairwise (fun a b =>
      (key b = none → key a = none) ∧ ∀ x y, key a = some x → key b = some y → y ≤ x) ∧
    (∀ (sortOrder : SortOrder) (a b : α), key a = key b →
      [a, b].Sublist l → [a, b].Sublist (applySort sortOrder key l)) := by
  refine ⟨⟨List.perm_insertionSort _ l, List.perm_insertionSort _ l⟩, ?_, ?_, ?_⟩
  · have hs := @List.sorted_insertionSort α
      (fun a b => sortComparator .asc (key a) (key b) ≤ 0)
      (fun _ _ => Int.decLe _ _)
      ⟨fun a b => sortComparator_total .asc (key a) (key b)⟩
      ⟨fun _ _ _ h1 h2 => sortComparator_trans .asc h1 h2⟩ l
    exact hs.imp (fun hab => (sortComparator_asc_le_iff _ _).mp hab)
  · have hs := @List.sorted_insertionSort α
      (fun a b => sortComparator .desc (key a) (key b) ≤ 0)
      (fun _ _ => Int.decLe _ _)
      ⟨fun a b => sortComparator_total .desc (key a) (key b)⟩
      ⟨fun _ _ _ h1 h2 => sortComparator_trans .desc h1 h2⟩ l
    exact hs.imp (fun hab => (sortComparator_desc_le_iff _ _).mp hab)
  · intro sortOrder a b hk hsub
    have hr : sortComparator sortOrder (key a) (key b) ≤ 0 := by
      rw [hk, sortComparator_refl]
    exact List.pair_sublist_insertionSort hr hsub

/-- C2 amended witness: two rows with the same column value keep their input
order (stability, via the theorem), and an ascending sort places the null
last. -/
theorem C2_applySort_semantics_witness :
    [((1 : Nat), (some 5 : Option Int)), (2, some 5)].Sublist
      (applySort .asc Prod.snd [((1 : Nat), (some 5 : Option Int)), (2, some 5)]) ∧
    applySort .asc (fun x : Option Int => x) [none, some 3] = [some 3, none] := by
  constructor
  · exact (C2_applySort_semantics Prod.snd
      [((1 : Nat), (some 5 : Option Int)), (2, some 5)]).2.2.2 .asc _ _ rfl
      (List.Sublist.refl _)
  · decide

theorem takeWhile_append_stop {p : Char → Bool} {l1 l2 : List Char}
    (h1 : ∀ c ∈ l1, p c = true)
    (h2 : match l2 with | [] => True | c :: _ => p c = false) :
    (l1 ++ l2).takeWhile p = l1 := by
  induction l1 with
  | nil =>
    cases l2 with
    | nil => rfl
    | cons c t => simp [List.takeWhile_cons, h2]
  | cons c t ih =>
    have hc : p c = true := h1 c (List.mem_cons_self c t)
    simp [List.takeWhile_cons, hc, ih (fun d hd => h1 d (List.mem_cons_of_mem c hd))]

/-- The table-name prefix never contains the delimiter. -/
theorem tableNameOf_no_bang (range : String) : '!' ∉ (tableNameOf range).data := by
  intro hmem
  have h := List.mem_takeWhile_imp hmem
  simp at h

/-- A key that starts with `p ++ "!"` (for delimiter-free `p`) has table-name
prefix exactly `p`. -/
theorem tableNameOf_of_startsWith {k p : String} (hp : '!' ∉ p.data)
    (h : strStartsWith k (p ++ "!") = true) : tableNameOf k = p := by
  unfold strStartsWith at h
  rw [List.isPrefixOf_iff_prefix] at h
  obtain ⟨t, ht⟩ := h
  rw [String.data_append] at ht
  have hbang : ("!" : String).data = ['!'] := rfl
  rw [hbang] at ht
  unfold tableNameOf
  rw [← ht, List.append_assoc, List.singleton_append]
  rw [takeWhile_append_stop (p := fun c => c != '!')
    (fun c hc => by
      simp only [bne_iff_ne, ne_eq, decide_eq_true_eq]
      intro he; subst he; exact hp hc)
    (by simp)]

/-- C7, counterexample: a cached key equal to the bare table name (no `!`
delimiter) has the same table-name prefix as the written range `T1!A1`, yet
it survives the write's invalidation, because deletion requires the key to
start with `"T1!"`. -/
theorem C7_cache_counterexample :
    updateValuesCache "T1!A1" [("T1", 0)] = [("T1", 0)] ∧
    tableNameOf "T1" = tableNameOf "T1!A1" := by
  constructor
  · decide
  · decide

/-- C7 (amended): after a write-class operation (append, overwrite, clear) on
a range, a cache entry is removed exactly when the written range's table-name
prefix is non-empty and the entry's key starts with that prefix followed by
the `!` delimiter.  Every other entry — in particular every entry keyed under
a different table name — survives unchanged, and the surviving entries keep
their order (the result is a sublist of the cache). -/
theorem C7_cache_invalidation {α : Type} (range : String) (cache : List (String × α)) :
    (∀ kv : String × α, kv ∈ invalidateCache range cache ↔
      kv ∈ cache ∧ (tableNameOf range = "" ∨
        strStartsWith kv.1 (tableNameOf range ++ "!") = false)) ∧
    (∀ kv : String × α, kv ∈ cache → tableNameOf kv.1 ≠ tableNameOf range →
      kv ∈ invalidateCache range cache) ∧
    (invalidateCache range cache).Sublist cache ∧
    updateValuesCache range cache = invalidateCache range cache ∧
    appendValuesCache range cache = invalidateCache range cache ∧
    clearValuesCache range cache = invalidateCache range cache := by
  have hmem : ∀ kv : String × α, kv ∈ invalidateCache range cache ↔
      kv ∈ cache ∧ (tableNameOf range = "" ∨
        strStartsWith kv.1 (tableNameOf range ++ "!") = false) := by
    intro kv
    unfold invalidateCache
    by_cases he : tableNameOf range = ""
    · rw [if_pos he]
      simp [he]
    · rw [if_neg he]
      rw [List.mem_filter]
      simp [he]
  refine ⟨hmem, ?_, ?_, rfl, rfl, rfl⟩
  · intro kv hin hne
    rw [hmem kv]
    refine ⟨hin, ?_⟩
    by_cases he : tableNameOf range = ""
    · exact Or.inl he
    · refine Or.inr ?_
      cases hs : strStartsWith kv.1 (tableNameOf range ++ "!") with
      | false => rfl
      | true =>
        exact absurd (tableNameOf_of_startsWith (tableNameOf_no_bang range) hs) hne
  · unfold invalidateCache
    by_cases he : tableNameOf range = ""
    · rw [if_pos he]
    · rw [if_neg he]
      exact List.filter_sublist cache

/-- C7 amended witness: a write to `T1!A2` removes the cached `T1!A1:B2`
read and leaves the `T2!A1` entry of the other table in place. -/
theorem C7_cache_invalidation_witness :
    (("T2!A1", 1) ∈ invalidateCache "T1!A2" [("T1!A1:B2", 0), ("T2!A1", 1)]) ∧
    ¬ (("T1!A1:B2", 0) ∈ invalidateCache "T1!A2" [("T1!A1:B2", 0), ("T2!A1", 1)]) := by
  constructor
  · exact (C7_cache_invalidation "T1!A2" [("T1!A1:B2", 0), ("T2!A1", 1)]).2.1
      ("T2!A1", 1) (by decide) (by decide)
  · intro hmem
    have h := ((C7_cache_invalidation "T1!A2" [("T1!A1:B2", 0), ("T2!A1", 1)]).1
      ("T1!A1:B2", 0)).mp hmem
    exact absurd h (by decide)

/-- C8 (confirmed): during relation resolution, a parent row whose local-key
value is falsy — null or absent, but equally the number 0, the empty string,
and `false` — is left untouched: no relation key is attached at all, neither
a null hasOne value nor an empty hasMany collection. -/
theorem C8_falsy_local_key_skipped (relation : RelationCfg) (allRelatedRecords : List Item)
    (item : Item) (h : jsFalsy (lookupItem item relation.localKey) = true) :
    attachRelation relation allRelatedRecords item = (item, none) := by
  unfold attachRelation
  simp [h]

/-- C8 witness: the skip evaluated at the three non-null falsy values the
claim names — 0, the empty string, and false. -/
theorem C8_falsy_local_key_skipped_witness :
    attachRelation ⟨.hasMany, "uid", "uid"⟩ [[("uid", .vnum 7)]] [("uid", .vnum 0)] =
      ([("uid", .vnum 0)], none) ∧
    attachRelation ⟨.hasOne, "uid", "uid"⟩ [] [("uid", .vstr "")] =
      ([("uid", .vstr "")], none) ∧
    attachRelation ⟨.hasOne, "uid", "uid"⟩ [] [("uid", .vbool false)] =
      ([("uid", .vbool false)], none) :=
  ⟨C8_falsy_local_key_skipped _ _ _ rfl,
   C8_falsy_local_key_skipped _ _ _ rfl,
   C8_falsy_local_key_skipped _ _ _ rfl⟩

/-- C5 (confirmed): when the schema declares a soft-delete column, every row
whose decoded soft-delete value is truthy is written back unchanged (the raw
row reappears at its position in the single write-back) and contributes
nothing to the returned updated-items list — the skip happens before the
filter is even consulted, as the characterization of `updatedItems` shows. -/
theorem C5_update_soft_deleted_immune (schema : SchemaL) (headers : List String)
    (f : FilterV) (data : Item) (now : String) (rows : List Row)
    (d : String) (hd : getDeletedAtField schema = some d) :
    (∀ (i : Nat) (r : Row), rows[i]? = some r →
      jsTruthy (lookupItem (mapRowToObject schema headers r) d) = true →
      (updateModel schema headers f data now rows).newRows[i]? = some r) ∧
    ((updateModel schema headers f data now rows).updatedItems =
      rows.filterMap (fun r =>
        let item := mapRowToObject schema headers r
        if jsTruthy (lookupItem item d) then none
        else if matchesFilter item f then
          some (spreadMerge item (mkUpdateData schema data now))
        else none)) := by
  have hstep : ∀ r, updateStep schema headers f (mkUpdateData schema data now) r =
      (let item := mapRowToObject schema headers r
       if jsTruthy (lookupItem item d) then (r, none)
       else if matchesFilter item f then
         (mapObjectToRow headers (spreadMerge item (mkUpdateData schema data now)),
          some (spreadMerge item (mkUpdateData schema data now)))
       else (r, none)) := by
    intro r
    unfold updateStep
    rw [hd]
  constructor
  · intro i r hi hdel
    have h1 : (updateModel schema headers f data now rows).newRows[i]? =
        (rows[i]?).map
          (fun r => (updateStep schema headers f (mkUpdateData schema data now) r).1) := by
      show (rows.map
        (fun r => (updateStep schema headers f (mkUpdateData schema data now) r).1))[i]? = _
      exact List.getElem?_map _ _ _
    rw [h1, hi]
    simp [hstep r, hdel]
  · unfold updateModel
    apply List.filterMap_congr
    intro r _
    rw [hstep r]
    by_cases h1 : jsTruthy (lookupItem (mapRowToObject schema headers r) d) = true
    · simp [h1]
    · rw [Bool.not_eq_true] at h1
      by_cases h2 : matchesFilter (mapRowToObject schema headers r) f
      · simp [h1, h2]
      · rw [Bool.not_eq_true] at h2
        simp [h1, h2]

/-- C5 witness: a soft-deleted row (non-empty deletedAt cell) that matches
the filter is left untouched by `update` and is absent from the result. -/
theorem C5_update_soft_deleted_immune_witness :
    (updateModel c5Schema ["deletedAt", "name"] [("name", .lit (.vstr "alice"))]
      [("name", .vstr "bob")] "now" [["x", "alice"]]).newRows[0]? =
      some ["x", "alice"] ∧
    (updateModel c5Schema ["deletedAt", "name"] [("name", .lit (.vstr "alice"))]
      [("name", .vstr "bob")] "now" [["x", "alice"]]).updatedItems = [] :=
  ⟨(C5_update_soft_deleted_immune c5Schema ["deletedAt", "name"]
      [("name", .lit (.vstr "alice"))] [("name", .vstr "bob")] "now"
      [["x", "alice"]] "deletedAt" rfl).1 0 ["x", "alice"] rfl rfl,
   ((C5_update_soft_deleted_immune c5Schema ["deletedAt", "name"]
      [("name", .lit (.vstr "alice"))] [("name", .vstr "bob")] "now"
      [["x", "alice"]] "deletedAt" rfl).2).trans rfl⟩

theorem lookupItem_cons (kv : String × TValue) (t : Item) (k : String) :
    lookupItem (kv :: t) k = if kv.1 == k then some kv.2 else lookupItem t k := by
  unfold lookupItem
  rw [List.find?_cons]
  cases hk : (kv.1 == k) <;> simp [hk]

theorem lookupItem_append_of_none {data : Item} {k : String}
    (h : lookupItem data k = none) (l2 : Item) :
    lookupItem (data ++ l2) k = lookupItem l2 k := by
  induction data with
  | nil => rfl
  | cons kv t ih =>
    rw [lookupItem_cons] at h
    rw [List.cons_append, lookupItem_cons]
    by_cases hk : (kv.1 == k) = true
    · rw [if_pos hk] at h
      exact absurd h (by simp)
    · rw [if_neg hk] at h ⊢
      exact ih h

theorem lookupItem_append_of_some {data : Item} {k : String} {v : TValue}
    (h : lookupItem data k = some v) (l2 : Item) :
    lookupItem (data ++ l2) k = some v := by
  induction data with
  | nil => exact absurd h (by simp [lookupItem])
  | cons kv t ih =>
    rw [lookupItem_cons] at h
    rw [List.cons_append, lookupItem_cons]
    by_cases hk : (kv.1 == k) = true
    · rw [if_pos hk] at h ⊢
      exact h
    · rw [if_neg hk] at h ⊢
      exact ih h

theorem lookupItem_append_single_other {l1 : Item} {k k2 : String} {v : TValue}
    (h : k2 ≠ k) : lookupItem (l1 ++ [(k2, v)]) k = lookupItem l1 k := by
  cases hl : lookupItem l1 k with
  | some v0 => exact lookupItem_append_of_some hl _
  | none =>
    rw [lookupItem_append_of_none hl, lookupItem_cons]
    rw [if_neg (by simpa using h)]
    rfl

theorem lookupWm_cons (kv : String × Int) (t : WmMap) (k : String) :
    lookupWm (kv :: t) k = if kv.1 == k then some kv.2 else lookupWm t k := by
  unfold lookupWm
  rw [List.find?_cons]
  cases hk : (kv.1 == k) <;> simp [hk]

theorem lookupWm_append_of_none {wm : WmMap} {k : String}
    (h : lookupWm wm k = none) (l2 : WmMap) :
    lookupWm (wm ++ l2) k = lookupWm l2 k := by
  induction wm with
  | nil => rfl
  | cons kv t ih =>
    rw [lookupWm_cons] at h
    rw [List.cons_append, lookupWm_cons]
    by_cases hk : (kv.1 == k) = true
    · rw [if_pos hk] at h
      exact absurd h (by simp)
    · rw [if_neg hk] at h ⊢
      exact ih h

theorem lookupWm_map_set {wm : WmMap} {k : String} (v : Int)
    (h : (lookupWm wm k).isSome = true) :
    lookupWm (wm.map (fun kv => if kv.1 == k then (kv.1, v) else kv)) k = some v := by
  induction wm with
  | nil => simp [lookupWm] at h
  | cons kv t ih =>
    rw [lookupWm_cons] at h
    rw [List.map_cons]
    by_cases hk : (kv.1 == k) = true
    · rw [if_pos hk, lookupWm_cons]
      simp [hk]
    · rw [if_neg hk] at h
      rw [if_neg hk, lookupWm_cons, if_neg hk]
      exact ih h

/-- The watermark read back after `setWm` is the stored value. -/
theorem lookupWm_setWm (wm : WmMap) (k : String) (v : Int) :
    lookupWm (setWm wm k v) k = some v := by
  unfold setWm
  by_cases h : (lookupWm wm k).isSome
  · rw [if_pos h]
    exact lookupWm_map_set v h
  · rw [if_neg h]
    have hnone : lookupWm wm k = none := by
      cases hl : lookupWm wm k with
      | none => rfl
      | some w => rw [hl] at h; simp at h
    rw [lookupWm_append_of_none hnone, lookupWm_cons]
    simp

/-- Folding the defaults over columns whose keys avoid `k` leaves the value
at `k` unchanged. -/
theorem defaultsFold_lookup_other (schema : SchemaL) (headers : List String)
    (env : CreateEnv) :
    ∀ (l : SchemaL) (acc : Item × WmMap) (k : String),
      k ∉ l.map Prod.fst →
      lookupItem (l.foldl (defaultsStep schema headers env) acc).1 k =
        lookupItem acc.1 k := by
  intro l
  induction l with
  | nil => intro acc k _; rfl
  | cons kv t ih =>
    intro acc k h
    have hk : kv.1 ≠ k := by
      intro he
      exact h (by rw [List.map_cons, he]; exact List.mem_cons_self _ _)
    have ht : k ∉ t.map Prod.fst :=
      fun hm => h (by rw [List.map_cons]; exact List.mem_cons_of_mem _ hm)
    rw [List.foldl_cons, ih _ k ht]
    unfold defaultsStep
    by_cases h1 : (lookupItem acc.1 kv.1).isSome
    · rw [if_pos h1]
    · rw [if_neg h1]
      rcases hgd : getDefaultValue schema headers env acc.2 kv.1 kv.2 with ⟨o, wm2⟩
      cases o with
      | some v =>
        show lookupItem (acc.1 ++ [(kv.1, v)]) k = lookupItem acc.1 k
        exact lookupItem_append_single_other hk
      | none => rfl

/-- A unique-declared column with an explicit default and no caller-supplied
value ends up holding exactly the default after `applyColumnDefaults`. -/
theorem defaultsFold_fills_default (schema : SchemaL) (headers : List String)
    (env : CreateEnv) :
    ∀ (l : SchemaL) (acc : Item × WmMap) (k : String) (cd : ColumnDef) (w : TValue),
      (l.map Prod.fst).Nodup →
      (k, cd) ∈ l →
      cd.defaultVal = some w →
      lookupItem acc.1 k = none →
      lookupItem (l.foldl (defaultsStep schema headers env) acc).1 k = some w := by
  intro l
  induction l with
  | nil =>
    intro acc k cd w _ hmem _ _
    exact absurd hmem (List.not_mem_nil _)
  | cons kv t ih =>
    intro acc k cd w hnodup hmem hdef hnone
    rw [List.map_cons, List.nodup_cons] at hnodup
    rw [List.foldl_cons]
    rcases List.mem_cons.mp hmem with heq | hmem2
    · have hk1 : kv.1 = k := by rw [← heq]
      have hk2 : kv.2 = cd := by rw [← heq]
      have hstep : defaultsStep schema headers env acc kv = (acc.1 ++ [(kv.1, w)], acc.2) := by
        unfold defaultsStep getDefaultValue
        rw [hk1, hk2, hnone, hdef]
        simp
      rw [hstep]
      have hnt : k ∉ t.map Prod.fst := by rw [← hk1]; exact hnodup.1
      rw [defaultsFold_lookup_other schema headers env t _ k hnt]
      rw [lookupItem_append_of_none hnone, lookupItem_cons]
      simp [hk1]
    · have hkey : k ∈ t.map Prod.fst := by
        have : (k, cd).1 ∈ t.map Prod.fst := List.mem_map_of_mem Prod.fst hmem2
        exact this
      have hk1 : kv.1 ≠ k := fun he => hnodup.1 (by rw [he]; exact hkey)
      have hnone2 : lookupItem (defaultsStep schema headers env acc kv).1 k = none := by
        unfold defaultsStep
        by_cases h1 : (lookupItem acc.1 kv.1).isSome
        · rw [if_pos h1]
          exact hnone
        · rw [if_neg h1]
          rcases hgd : getDefaultValue schema headers env acc.2 kv.1 kv.2 with ⟨o, wm2⟩
          cases o with
          | some v =>
            show lookupItem (acc.1 ++ [(kv.1, v)]) k = none
            rw [lookupItem_append_single_other hk1]
            exact hnone
          | none => exact hnone
      exact ih _ k cd w hnodup.2 hmem2 hdef hnone2

/-- C3 (confirmed): three successive creates on a one-numeric-auto-increment
column model whose every read returns the same stale empty data still issue
1, 2, 3: the in-memory watermark carried out of each call feeds the next.
In general the issued value is `scannedMax + 1` with no watermark, and
`max scannedMax watermark + 1` with one — strictly above both the scanned
maximum and the old watermark — and it is stored as the new watermark for
the column before the call returns. -/
theorem C3_autoincrement_monotone_burst :
    (createOnce c3Schema ["id"] c3Env [] [] [] =
        .ok ([("id", .vnum 1)], [mapObjectToRow ["id"] [("id", .vnum 1)]], [("id", 1)]) ∧
      createOnce c3Schema ["id"] c3Env [("id", 1)]
          [mapObjectToRow ["id"] [("id", .vnum 1)]] [] =
        .ok ([("id", .vnum 2)],
          [mapObjectToRow ["id"] [("id", .vnum 1)], mapObjectToRow ["id"] [("id", .vnum 2)]],
          [("id", 2)]) ∧
      createOnce c3Schema ["id"] c3Env [("id", 2)]
          [mapObjectToRow ["id"] [("id", .vnum 1)], mapObjectToRow ["id"] [("id", .vnum 2)]] [] =
        .ok ([("id", .vnum 3)],
          [mapObjectToRow ["id"] [("id", .vnum 1)], mapObjectToRow ["id"] [("id", .vnum 2)],
           mapObjectToRow ["id"] [("id", .vnum 3)]],
          [("id", 3)])) ∧
    (∀ (schema : SchemaL) (headers : List String) (wm : WmMap) (rows : Option (List Row))
        (key : String),
      (lookupWm wm key = none →
        (getNextAutoIncrementValue schema headers wm rows key).1 =
          scannedMax schema headers rows key + 1) ∧
      (∀ w, lookupWm wm key = some w →
        (getNextAutoIncrementValue schema headers wm rows key).1 =
          max (scannedMax schema headers rows key) w + 1 ∧
        w < (getNextAutoIncrementValue schema headers wm rows key).1 ∧
        scannedMax schema headers rows key <
          (getNextAutoIncrementValue schema headers wm rows key).1) ∧
      lookupWm (getNextAutoIncrementValue schema headers wm rows key).2 key =
        some (getNextAutoIncrementValue schema headers wm rows key).1) := by
  refine ⟨⟨rfl, rfl, rfl⟩, ?_⟩
  intro schema headers wm rows key
  refine ⟨?_, ?_, ?_⟩
  · intro h
    unfold getNextAutoIncrementValue
    rw [h]
  · intro w h
    have hval : (getNextAutoIncrementValue schema headers wm rows key).1 =
        max (scannedMax schema headers rows key) w + 1 := by
      unfold getNextAutoIncrementValue
      rw [h]
    refine ⟨hval, ?_, ?_⟩
    · rw [hval]
      have := le_max_right (scannedMax schema headers rows key) w
      omega
    · rw [hval]
      have := le_max_left (scannedMax schema headers rows key) w
      omega
  · exact lookupWm_setWm wm key _

theorem C3_autoincrement_monotone_burst_witness :
    (getNextAutoIncrementValue c3Schema ["id"] [("id", 5)] (some []) "id").1 =
        max (scannedMax c3Schema ["id"] (some []) "id") 5 + 1 ∧
      (5 : Int) < (getNextAutoIncrementValue c3Schema ["id"] [("id", 5)] (some []) "id").1 ∧
      scannedMax c3Schema ["id"] (some []) "id" <
        (getNextAutoIncrementValue c3Schema ["id"] [("id", 5)] (some []) "id").1 ∧
      lookupWm (getNextAutoIncrementValue c3Schema ["id"] [("id", 5)] (some []) "id").2 "id" =
        some (getNextAutoIncrementValue c3Schema ["id"] [("id", 5)] (some []) "id").1 := by
  have h := C3_autoincrement_monotone_burst.2 c3Schema ["id"] [("id", 5)] (some []) "id"
  have h2 := h.2.1 5 rfl
  exact ⟨h2.1, h2.2.1, h2.2.2, h.2.2⟩

/-- Validation passes exactly when every key present in the input whose
column is declared unique has no visible hit on that key's value. -/
theorem validateUniqueConstraints_eq_none_iff (schema : SchemaL) (vis : List Item)
    (d : Item) :
    validateUniqueConstraints schema vis d = none ↔
      ∀ kv ∈ d, ∀ cd2, lookupCol schema kv.1 = some cd2 → cd2.unique = true →
        findFirstItems vis [(kv.1, .lit kv.2)] = none := by
  unfold validateUniqueConstraints
  rw [List.findSome?_eq_none_iff]
  constructor
  · intro h kv hkv cd2 hc2 hu2
    have h2 := h kv hkv
    simp only [hc2, hu2, if_true] at h2
    cases hff : findFirstItems vis [(kv.1, FilterVal.lit kv.2)] with
    | none => rfl
    | some it =>
      rw [hff] at h2
      simp at h2
  · intro h kv hkv
    cases hc2 : lookupCol schema kv.1 with
    | none => simp [hc2]
    | some cd2 =>
      by_cases hu2 : cd2.unique = true
      · simp only [hc2, hu2, if_true]
        rw [h kv hkv cd2 hc2 hu2]
      · simp [hc2, hu2]

/-- C9 (confirmed): uniqueness is checked only for unique-declared columns
whose keys are present in the caller's input object — validation passes
exactly when every present key with a unique column has no visible hit —
and a unique column absent from the input and filled afterwards by a schema
default is never collision-checked: preparation succeeds and fills the
default even though a visible row already holds that very value. -/
theorem C9_unique_check_only_present_keys
    (schema : SchemaL) (headers : List String) (env : CreateEnv) (wm : WmMap)
    (data : Item) (k : String) (cd : ColumnDef) (w : TValue)
    (hnodup : (schema.map Prod.fst).Nodup)
    (habsent : lookupItem data k = none)
    (hmem : (k, cd) ∈ schema)
    (huniq : cd.unique = true)
    (hdef : cd.defaultVal = some w)
    (hcollision : ∃ it ∈ visibleItems schema headers env.readRows,
      jsStrictEqO (lookupItem it k) w = true)
    (hvalid : validateUniqueConstraints schema (visibleItems schema headers env.readRows)
      data = none) :
    (∀ (vis : List Item) (d : Item),
      validateUniqueConstraints schema vis d = none ↔
        ∀ kv ∈ d, ∀ cd2, lookupCol schema kv.1 = some cd2 → cd2.unique = true →
          findFirstItems vis [(kv.1, .lit kv.2)] = none) ∧
    ∃ item wm2,
      prepareDataForCreate schema headers env wm data = .ok (item, wm2) ∧
      lookupItem item k = some w := by
  refine ⟨fun vis d => validateUniqueConstraints_eq_none_iff schema vis d,
    (applyColumnDefaults schema headers env wm data).1,
    (applyColumnDefaults schema headers env wm data).2, ?_, ?_⟩
  · unfold prepareDataForCreate
    rw [hvalid]
  · unfold applyColumnDefaults
    exact defaultsFold_fills_default schema headers env schema (data, wm) k cd w
      hnodup hmem hdef habsent

theorem C9_unique_check_only_present_keys_witness :
    ((∃ it ∈ visibleItems c9Schema ["email"] c9Env.readRows,
        jsStrictEqO (lookupItem it "email") (.vstr "a@b") = true) ∧
      validateUniqueConstraints c9Schema
        (visibleItems c9Schema ["email"] c9Env.readRows) [] = none) ∧
    ∃ item wm2,
      prepareDataForCreate c9Schema ["email"] c9Env [] [] = .ok (item, wm2) ∧
      lookupItem item "email" = some (.vstr "a@b") := by
  have hcol : ∃ it ∈ visibleItems c9Schema ["email"] c9Env.readRows,
      jsStrictEqO (lookupItem it "email") (TValue.vstr "a@b") = true :=
    ⟨[("email", .vstr "a@b")], List.mem_cons_self _ _, rfl⟩
  exact ⟨⟨hcol, rfl⟩,
    (C9_unique_check_only_present_keys c9Schema ["email"] c9Env [] [] "email"
      { type := LType.str, unique := true, defaultVal := some (.vstr "a@b") }
      (.vstr "a@b") (by decide) rfl (List.mem_cons_self _ _) rfl rfl hcol rfl).2⟩

/-- C10 (confirmed): inside one `createMany` call every row is validated
against the visible items decoded from the pre-call read — the batch is
appended only afterwards, in one operation — so two batch rows sharing a
value on a unique-declared column both pass and both land in the store. -/
theorem C10_batch_shared_unique_value_both_appended
    (schema : SchemaL) (headers : List String) (env : CreateEnv) (wm : WmMap)
    (store : List Row) (d1 d2 : Item) (k : String) (cd : ColumnDef) (v : TValue)
    (i1 i2 : Item) (w1 w2 : WmMap)
    (hcd : lookupCol schema k = some cd)
    (huniq : cd.unique = true)
    (hv1 : lookupItem d1 k = some v)
    (hv2 : lookupItem d2 k = some v)
    (h1 : validateUniqueConstraints schema (visibleItems schema headers env.readRows) d1 = none)
    (h2 : validateUniqueConstraints schema (visibleItems schema headers env.readRows) d2 = none)
    (hp1 : applyColumnDefaults schema headers env wm d1 = (i1, w1))
    (hp2 : applyColumnDefaults schema headers env w1 d2 = (i2, w2)) :
    createMany schema headers env wm store [d1, d2] =
      .ok ([i1, i2], store ++ [mapObjectToRow headers i1, mapObjectToRow headers i2], w2) := by
  have e1 : prepareDataForCreate schema headers env wm d1 = .ok (i1, w1) := by
    unfold prepareDataForCreate
    rw [h1, hp1]
  have e2 : prepareDataForCreate schema headers env w1 d2 = .ok (i2, w2) := by
    unfold prepareDataForCreate
    rw [h2, hp2]
  have ea : createManyAux schema headers env wm [d1, d2] =
      .ok ([i1, i2], [mapObjectToRow headers i1, mapObjectToRow headers i2], w2) := by
    simp only [createManyAux, e1, e2]
  unfold createMany
  rw [ea]
  rfl

theorem C10_batch_shared_unique_value_both_appended_witness :
    createMany c10Schema ["email"] c10Env [] []
        [[("email", .vstr "x")], [("email", .vstr "x")]] =
      .ok ([[("email", .vstr "x")], [("email", .vstr "x")]], [["x"], ["x"]], []) :=
  C10_batch_shared_unique_value_both_appended c10Schema ["email"] c10Env [] []
    [("email", .vstr "x")] [("email", .vstr "x")] "email"
    { type := LType.str, unique := true } (.vstr "x")
    [("email", .vstr "x")] [("email", .vstr "x")] [] []
    rfl rfl rfl rfl rfl rfl rfl rfl

end Tarang
